import Mathlib

/-!
# Laba4: block allocator and fixed-capacity container

A shallow embedding of `src/main.cpp`: the class templates `allocatorforme<T, BlockSize>` and
`customContainer<T, MaxSize, Allocator>` over an explicit model of the C heap
(`std::malloc`, `std::free`, `std::memcpy`, placement construction).

Conventions of the embedding.

* Every C++ member function becomes a function from the object (and the heap) to an
  `Outcome` together with the object and the heap as they are when the call returns or throws,
  so that the state left behind by an exception can be talked about.
* `size_t` arithmetic that can wrap (`current_block_size * 2`, `new_size * sizeof(T)`,
  `allocated_elements * sizeof(T)`) is taken modulo `SIZE_MOD = 2 ^ 64`.
* `sizeof(T)` is the parameter `sizeofT`.
* The heap is a list of blocks, one per successful `malloc`, addressed by their position;
  a block is a list of cells, a cell is `none` while it holds no constructed element.
  Accesses outside a block, to a released block, or releasing a block twice are undefined
  behaviour and give `Outcome.ub`.
* Whether the system can supply memory is an input: `Heap.oracle` lists the outcomes of the
  `malloc` calls to come (`false` is a null return; an exhausted list means success).
-/

namespace Laba4

/-- Number of values of `size_t`. -/
def SIZE_MOD : Nat := 2 ^ 64

/-- The exceptions thrown in `main.cpp`: `std::bad_alloc` (line 55), `std::runtime_error`
(line 88, the container is full) and `std::out_of_range` (line 99). -/
inductive Exn where
  | bad_alloc
  | runtime_error
  | out_of_range
  deriving DecidableEq, Repr

/-- How a call ends: it returns a value, throws, or has undefined behaviour. -/
inductive Outcome (α : Type) where
  | ok (a : α)
  | throw (e : Exn)
  | ub
  deriving DecidableEq, Repr

/-- A non-null `T*`: the block pointed into and the element offset inside it.
A nullable `T*` is an `Option Ptr`, `none` being `nullptr`. -/
structure Ptr where
  blk : Nat
  off : Nat
  deriving DecidableEq, Repr

/-- The C heap as far as the program can observe it. -/
structure Heap (T : Type) where
  /-- Every block ever obtained from `malloc`, in order of allocation. -/
  blocks : List (List (Option T))
  /-- The blocks passed to `free`, in order of release. -/
  released : List Nat
  /-- Outcomes of the `malloc` calls to come. -/
  oracle : List Bool
  deriving DecidableEq, Repr

variable {T : Type}

/-- The heap before anything was allocated, with the given future of `malloc`. -/
def Heap.init (oracle : List Bool) : Heap T :=
  { blocks := [], released := [], oracle := oracle }

/-- The block is allocated and not yet released. -/
def Heap.live (h : Heap T) (b : Nat) : Prop :=
  b < h.blocks.length ∧ b ∉ h.released

instance (h : Heap T) (b : Nat) : Decidable (h.live b) := by
  unfold Heap.live; exact inferInstance

/-- Number of element slots of a block (0 for an unknown block). -/
def Heap.slots (h : Heap T) (b : Nat) : Nat :=
  (h.blocks.getD b []).length

/-- The cell at offset `i` of block `b`: `none` when out of range or not constructed. -/
def Heap.cell (h : Heap T) (b i : Nat) : Option T :=
  ((h.blocks.getD b []).getD i none)

/-- Whether the next `malloc` returns null. -/
def Heap.mallocFails (h : Heap T) : Bool :=
  h.oracle.head? == some false

/-- `std::malloc(bytes)` for an array of `T`: a null return when the system refuses, otherwise a
fresh block of `bytes / sizeof(T)` unconstructed slots. -/
def malloc (sizeofT bytes : Nat) (h : Heap T) : Option Ptr × Heap T :=
  if h.mallocFails then
    (none, { h with oracle := h.oracle.tail })
  else
    (some ⟨h.blocks.length, 0⟩,
     { blocks := h.blocks ++ [List.replicate (bytes / sizeofT) none]
       released := h.released
       oracle := h.oracle.tail })

/-- `std::free(p)`: nothing for a null pointer; otherwise `p` must be the start of a live
block, which is recorded as released. `none` is undefined behaviour. -/
def free (p : Option Ptr) (h : Heap T) : Option (Heap T) :=
  match p with
  | none => some h
  | some q =>
    if q.off = 0 ∧ h.live q.blk then
      some { h with released := h.released ++ [q.blk] }
    else none

/-- Replace the cells `[off, off + src.length)` of a block by `src`. -/
def overwrite (cells : List (Option T)) (off : Nat) (src : List (Option T)) : List (Option T) :=
  cells.take off ++ src ++ cells.drop (off + src.length)

/-- `std::memcpy(dst, src, bytes)` between arrays of `T`: copies the first `bytes / sizeof(T)`
cells starting at `src` over those starting at `dst`. Both ranges must lie inside live blocks;
`none` is undefined behaviour. -/
def memcpy (sizeofT : Nat) (dst src : Ptr) (bytes : Nat) (h : Heap T) : Option (Heap T) :=
  let k := bytes / sizeofT
  if h.live dst.blk ∧ h.live src.blk ∧ dst.off + k ≤ h.slots dst.blk ∧
      src.off + k ≤ h.slots src.blk then
    let moved := ((h.blocks.getD src.blk []).drop src.off).take k
    some { h with blocks := h.blocks.set dst.blk
                    (overwrite (h.blocks.getD dst.blk []) dst.off moved) }
  else none

/-- Placement construction `new (p) T(value)`: the slot must lie inside a live block. -/
def construct (p : Ptr) (value : T) (h : Heap T) : Option (Heap T) :=
  if h.live p.blk ∧ p.off < h.slots p.blk then
    some { h with blocks := h.blocks.set p.blk
                    ((h.blocks.getD p.blk []).set p.off (some value)) }
  else none

/-- Explicit destructor call `p->~T()`: the slot must hold a constructed element of a live
block and holds none afterwards. -/
def destroy (p : Ptr) (h : Heap T) : Option (Heap T) :=
  if h.live p.blk ∧ (h.cell p.blk p.off).isSome then
    some { h with blocks := h.blocks.set p.blk
                    ((h.blocks.getD p.blk []).set p.off none) }
  else none

/-- Reading through a `T&`: the element constructed at `p` in a live block, if any. -/
def load (h : Heap T) (p : Ptr) : Option T :=
  if h.live p.blk then h.cell p.blk p.off else none

/-- Pointer arithmetic `p + k`. -/
def ptrAdd (p : Option Ptr) (k : Nat) : Option Ptr :=
  p.map fun q => ⟨q.blk, q.off + k⟩

/-! ## `allocatorforme<T, BlockSize>` (lines 7-67) -/

/-- The data members of `allocatorforme` (lines 45-47). -/
structure allocatorforme where
  current_block_size : Nat
  allocated_elements : Nat
  block : Option Ptr
  deriving DecidableEq, Repr

namespace allocatorforme

/-- The private member `expand()` (lines 50-66). -/
def expand (sizeofT : Nat) (a : allocatorforme) (h : Heap T) :
    Outcome Unit × allocatorforme × Heap T :=
  let new_size := (a.current_block_size * 2) % SIZE_MOD
  match malloc sizeofT ((new_size * sizeofT) % SIZE_MOD) h with
  | (none, h1) => (.throw .bad_alloc, a, h1)
  | (some new_block, h1) =>
    match a.block with
    | none =>
      (.ok (), { a with block := some new_block, current_block_size := new_size }, h1)
    | some old =>
      match memcpy sizeofT new_block old ((a.allocated_elements * sizeofT) % SIZE_MOD) h1 with
      | none => (.ub, a, h1)
      | some h2 =>
        match free (some old) h2 with
        | none => (.ub, a, h2)
        | some h3 =>
          (.ok (), { a with block := some new_block, current_block_size := new_size }, h3)

/-- The constructor (lines 13-15): members initialised to `BlockSize`, `0`, `nullptr`, then
`expand()`. When `expand` throws no object comes into being. -/
def new (BlockSize sizeofT : Nat) (h : Heap T) : Outcome allocatorforme × Heap T :=
  let a : allocatorforme :=
    { current_block_size := BlockSize, allocated_elements := 0, block := none }
  match expand sizeofT a h with
  | (.ok (), a1, h1) => (.ok a1, h1)
  | (.throw e, _, h1) => (.throw e, h1)
  | (.ub, _, h1) => (.ub, h1)

/-- The member `allocate(n)` (lines 26-31). -/
def allocate (sizeofT n : Nat) (a : allocatorforme) (h : Heap T) :
    Outcome (Option Ptr) × allocatorforme × Heap T :=
  if n > a.current_block_size then
    match expand sizeofT a h with
    | (.ok (), a1, h1) => (.ok (ptrAdd a1.block a1.allocated_elements), a1, h1)
    | (.throw e, a1, h1) => (.throw e, a1, h1)
    | (.ub, a1, h1) => (.ub, a1, h1)
  else
    (.ok (ptrAdd a.block a.allocated_elements), a, h)

/-- The member `deallocate(p, n)` (lines 34-36): an empty body. -/
def deallocate (_p : Option Ptr) (_n : Nat) (a : allocatorforme) (h : Heap T) :
    Outcome Unit × allocatorforme × Heap T :=
  (.ok (), a, h)

/-- The loop of the destructor (lines 19-21), from index `i`, `fuel` iterations left. -/
def destroyFrom (a : allocatorforme) (i fuel : Nat) (h : Heap T) : Option (Heap T) :=
  match fuel with
  | 0 => some h
  | fuel + 1 =>
    match a.block with
    | none => none
    | some b =>
      match destroy ⟨b.blk, b.off + i⟩ h with
      | none => none
      | some h1 => destroyFrom a (i + 1) fuel h1

/-- The destructor (lines 18-23): destroys `block[0 .. allocated_elements)` in ascending order,
then `std::free(block)`. The members are returned as the body leaves them. -/
def delete (a : allocatorforme) (h : Heap T) : Outcome Unit × allocatorforme × Heap T :=
  match destroyFrom a 0 a.allocated_elements h with
  | none => (.ub, a, h)
  | some h1 =>
    match free a.block h1 with
    | none => (.ub, a, h1)
    | some h2 => (.ok (), a, h2)

end allocatorforme

/-! ## `customContainer<T, MaxSize, allocatorforme<T, BlockSize>>` (lines 70-116) -/

/-- The data members of `customContainer` (lines 113-115). -/
structure customContainer where
  size : Nat
  data : Option Ptr
  alloc : allocatorforme
  deriving DecidableEq, Repr

namespace customContainer

/-- The constructor (line 75): `size(0)`, `data(nullptr)` and the default-constructed
allocator member. -/
def new (BlockSize sizeofT : Nat) (h : Heap T) : Outcome customContainer × Heap T :=
  match allocatorforme.new BlockSize sizeofT h with
  | (.ok a, h1) => (.ok { size := 0, data := none, alloc := a }, h1)
  | (.throw e, h1) => (.throw e, h1)
  | (.ub, h1) => (.ub, h1)

/-- The member `push_back(value)` (lines 86-95). `++size` cannot wrap: it runs only when
`size < MaxSize`, and `MaxSize` is a `size_t`. -/
def push_back (MaxSize sizeofT : Nat) (value : T) (c : customContainer) (h : Heap T) :
    Outcome Unit × customContainer × Heap T :=
  if c.size ≥ MaxSize then
    (.throw .runtime_error, c, h)
  else
    let r : Outcome Unit × customContainer × Heap T :=
      match c.data with
      | none =>
        match allocatorforme.allocate sizeofT MaxSize c.alloc h with
        | (.ok p, a1, h1) => (.ok (), { c with data := p, alloc := a1 }, h1)
        | (.throw e, a1, h1) => (.throw e, { c with alloc := a1 }, h1)
        | (.ub, a1, h1) => (.ub, { c with alloc := a1 }, h1)
      | some _ => (.ok (), c, h)
    match r with
    | (.ok (), c1, h1) =>
      match c1.data with
      | none => (.ub, c1, h1)
      | some d =>
        match construct ⟨d.blk, d.off + c1.size⟩ value h1 with
        | none => (.ub, c1, h1)
        | some h2 => (.ok (), { c1 with size := c1.size + 1 }, h2)
    | other => other

/-- The member `operator[](index)` (lines 97-102); the reference returned is a pointer to the
slot `data[index]`. -/
def operator_index (index : Nat) (c : customContainer) (h : Heap T) :
    Outcome Ptr × customContainer × Heap T :=
  if index ≥ c.size then
    (.throw .out_of_range, c, h)
  else
    match c.data with
    | none => (.ub, c, h)
    | some d => (.ok ⟨d.blk, d.off + index⟩, c, h)

/-- The member `getSize()` (lines 104-106). -/
def getSize (c : customContainer) : Nat :=
  c.size

/-- The member `empty()` (lines 108-110). -/
def empty (c : customContainer) : Bool :=
  c.size == 0

/-- Appending a list of values in order with `push_back`, stopping at the first call that
does not return normally (as the loop of `main`, lines 170-172, does). -/
def push_all (MaxSize sizeofT : Nat) (vs : List T) (c : customContainer) (h : Heap T) :
    Outcome Unit × customContainer × Heap T :=
  match vs with
  | [] => (.ok (), c, h)
  | v :: rest =>
    match push_back MaxSize sizeofT v c h with
    | (.ok (), c1, h1) => push_all MaxSize sizeofT rest c1 h1
    | other => other

/-- Reading `c[index]` as a value, as `std::cout << my_custom_container[i]` does (line 177). -/
def read (index : Nat) (c : customContainer) (h : Heap T) : Outcome T :=
  match operator_index index c h with
  | (.ok p, _, h1) =>
    match load h1 p with
    | some v => .ok v
    | none => .ub
  | (.throw e, _, _) => .throw e
  | (.ub, _, _) => .ub

end customContainer

/-! ## Invariants and reachable states -/

/-- Every released block has been allocated. -/
def Heap.WF (h : Heap T) : Prop :=
  ∀ b ∈ h.released, b < h.blocks.length

namespace allocatorforme

/-- The invariant of an allocator in use: the heap is well formed, no element is counted as
constructed, and `block` is the start of a live block. -/
def Inv (a : allocatorforme) (h : Heap T) : Prop :=
  h.WF ∧ a.allocated_elements = 0 ∧ ∃ b, a.block = some ⟨b, 0⟩ ∧ h.live b

/-- What the allocator owes the system: beyond the `n0` blocks and the releases `r0` that
were there before it was constructed, every block obtained since is either its current block
or has been released exactly once; earlier blocks are untouched. -/
def Owns (n0 : Nat) (r0 : List Nat) (a : allocatorforme) (h : Heap T) : Prop :=
  a.Inv h ∧ n0 ≤ h.blocks.length ∧
  (∀ b, a.block = some ⟨b, 0⟩ → n0 ≤ b) ∧
  (∀ b, n0 ≤ b → b < h.blocks.length → a.block ≠ some ⟨b, 0⟩ → h.released.count b = 1) ∧
  (∀ b, b < n0 → h.released.count b = r0.count b)

/-- The states of an `allocatorforme<T, BlockSize>` and of the heap that a client can bring
about: construction on a well-formed heap `h0`, then any calls of `allocate` and `deallocate`
(whatever they return), interleaved with placement constructions by the client. -/
inductive Reachable (BlockSize sizeofT : Nat) (h0 : Heap T) : allocatorforme → Heap T → Prop where
  | ctor {a : allocatorforme} {h : Heap T} :
      h0.WF → allocatorforme.new BlockSize sizeofT h0 = (.ok a, h) → Reachable BlockSize sizeofT h0 a h
  | allocate {a : allocatorforme} {h : Heap T} (n : Nat) {r : Outcome (Option Ptr)}
      {a1 : allocatorforme} {h1 : Heap T} :
      Reachable BlockSize sizeofT h0 a h → allocate sizeofT n a h = (r, a1, h1) →
      Reachable BlockSize sizeofT h0 a1 h1
  | deallocate {a : allocatorforme} {h : Heap T} (p : Option Ptr) (n : Nat) {r : Outcome Unit}
      {a1 : allocatorforme} {h1 : Heap T} :
      Reachable BlockSize sizeofT h0 a h → deallocate p n a h = (r, a1, h1) →
      Reachable BlockSize sizeofT h0 a1 h1
  | construct {a : allocatorforme} {h : Heap T} (p : Ptr) (v : T) {h1 : Heap T} :
      Reachable BlockSize sizeofT h0 a h → Laba4.construct p v h = some h1 →
      Reachable BlockSize sizeofT h0 a h1

/-- Forcing `K` growths through `allocate`: each call asks for one element more than the
current capacity. Stops at the first call that does not return normally. -/
def force_growths (sizeofT : Nat) (K : Nat) (a : allocatorforme) (h : Heap T) :
    Outcome Unit × allocatorforme × Heap T :=
  match K with
  | 0 => (.ok (), a, h)
  | K + 1 =>
    match allocate sizeofT (a.current_block_size + 1) a h with
    | (.ok _, a1, h1) => force_growths sizeofT K a1 h1
    | (.throw e, a1, h1) => (.throw e, a1, h1)
    | (.ub, a1, h1) => (.ub, a1, h1)

end allocatorforme

namespace customContainer

/-- The invariant of a container holding the values `vs`, in order of insertion. -/
def Inv (MaxSize : Nat) (vs : List T) (c : customContainer) (h : Heap T) : Prop :=
  c.alloc.Inv h ∧ c.size = vs.length ∧ vs.length ≤ MaxSize ∧
  (c.data = none → vs = []) ∧
  (∀ d, c.data = some d → c.alloc.block = some d ∧
    ∀ i v, vs[i]? = some v → h.cell d.blk (d.off + i) = some v)

/-- The states of a `customContainer<T, MaxSize, allocatorforme<T, BlockSize>>` reachable
through its public member functions from construction on a well-formed heap, indexed by the
values appended so far. A call with undefined behaviour leaves no state behind. -/
inductive Reachable (MaxSize BlockSize sizeofT : Nat) :
    List T → customContainer → Heap T → Prop where
  | fresh {h0 : Heap T} {c : customContainer} {h : Heap T} :
      h0.WF → customContainer.new BlockSize sizeofT h0 = (.ok c, h) →
      Reachable MaxSize BlockSize sizeofT [] c h
  | push_ok {vs : List T} {c : customContainer} {h : Heap T} (v : T)
      {c1 : customContainer} {h1 : Heap T} :
      Reachable MaxSize BlockSize sizeofT vs c h →
      push_back MaxSize sizeofT v c h = (.ok (), c1, h1) →
      Reachable MaxSize BlockSize sizeofT (vs ++ [v]) c1 h1
  | push_throw {vs : List T} {c : customContainer} {h : Heap T} (v : T) {e : Exn}
      {c1 : customContainer} {h1 : Heap T} :
      Reachable MaxSize BlockSize sizeofT vs c h →
      push_back MaxSize sizeofT v c h = (.throw e, c1, h1) →
      Reachable MaxSize BlockSize sizeofT vs c1 h1
  | index {vs : List T} {c : customContainer} {h : Heap T} (i : Nat) {r : Outcome Ptr}
      {c1 : customContainer} {h1 : Heap T} :
      Reachable MaxSize BlockSize sizeofT vs c h →
      operator_index i c h = (r, c1, h1) →
      Reachable MaxSize BlockSize sizeofT vs c1 h1

end customContainer

/-! ## The scenarios of `main` and small instances used as examples -/

/-- A freshly constructed `allocatorforme<int, BlockSize>` (`sizeof(int) = 4`) on the empty
heap with the given future of `malloc`; a failed construction leaves the members as they are
initialised. -/
def fresh_allocator (BlockSize : Nat) (oracle : List Bool) : allocatorforme × Heap Int :=
  match allocatorforme.new BlockSize 4 (Heap.init oracle) with
  | (.ok a, h) => (a, h)
  | (_, h) => (⟨BlockSize, 0, none⟩, h)

/-- A freshly constructed `customContainer<int, MaxSize, allocatorforme<int, BlockSize>>` on
the empty heap, where `malloc` always succeeds. -/
def fresh_container (BlockSize : Nat) : customContainer × Heap Int :=
  match customContainer.new BlockSize 4 (Heap.init []) with
  | (.ok c, h) => (c, h)
  | (_, h) => (⟨0, none, ⟨BlockSize, 0, none⟩⟩, h)

/-- The container after appending `vs` to a fresh one. -/
def filled (MaxSize BlockSize : Nat) (vs : List Int) :
    Outcome Unit × customContainer × Heap Int :=
  customContainer.push_all MaxSize 4 vs (fresh_container BlockSize).1 (fresh_container BlockSize).2

/-- The values `0, 1, ..., n - 1` as `int`s. -/
def upto (n : Nat) : List Int :=
  (List.range n).map Int.ofNat

/-- Lines 166-172 of `main`: `my_custom_container` after the loop appending `0..9`. -/
def my_custom_container : Outcome Unit × customContainer × Heap Int :=
  filled 10 10 (upto 10)

/-- Constructing the values `vs` in consecutive slots from `p` on, as a client does with
storage it was handed. -/
def construct_all (p : Ptr) (vs : List T) (h : Heap T) : Option (Heap T) :=
  match vs with
  | [] => some h
  | v :: rest =>
    match construct p v h with
    | none => none
    | some h1 => construct_all ⟨p.blk, p.off + 1⟩ rest h1

/-- A client that calls `allocate(vs.length)`, constructs the elements `vs` in the storage
returned and then calls `allocate(n2)`: the two pointers returned, the allocator and the heap
at the end; `none` when a call does not return a non-null pointer. -/
def allocate_construct_allocate (sizeofT n2 : Nat) (vs : List T) (a : allocatorforme)
    (h : Heap T) : Option (Ptr × Ptr × allocatorforme × Heap T) :=
  match allocatorforme.allocate sizeofT vs.length a h with
  | (.ok (some p1), a1, h1) =>
    match construct_all p1 vs h1 with
    | none => none
    | some h2 =>
      match allocatorforme.allocate sizeofT n2 a1 h2 with
      | (.ok (some p2), a2, h3) => some (p1, p2, a2, h3)
      | _ => none
  | _ => none

/-! ## The calls a container makes, as events -/

/-- What a `customContainer` member function does to its elements and to its allocator:
`alloc.allocate(n)` (with whether the call returned or threw), the explicit destructor call
on the element at `p`, and `alloc.deallocate(p, n)`. -/
inductive Event where
  | allocate (n : Nat) (returned : Bool)
  | destroy (p : Ptr)
  | deallocate (p : Option Ptr) (n : Nat)
  deriving DecidableEq, Repr

/-- The `allocate` calls of a trace that returned normally. -/
def Event.isReturnedAllocate : Event → Bool
  | .allocate _ true => true
  | _ => false

namespace customContainer

/-- The member `push_back(value)` (lines 86-95) once more, also listing the calls it makes on
the allocator. Its outcome and states are those of `push_back`. -/
def push_back_log (MaxSize sizeofT : Nat) (value : T) (c : customContainer) (h : Heap T) :
    List Event × Outcome Unit × customContainer × Heap T :=
  if c.size ≥ MaxSize then
    ([], .throw .runtime_error, c, h)
  else
    let r : List Event × Outcome Unit × customContainer × Heap T :=
      match c.data with
      | none =>
        match allocatorforme.allocate sizeofT MaxSize c.alloc h with
        | (.ok p, a1, h1) =>
          ([.allocate MaxSize true], .ok (), { c with data := p, alloc := a1 }, h1)
        | (.throw e, a1, h1) =>
          ([.allocate MaxSize false], .throw e, { c with alloc := a1 }, h1)
        | (.ub, a1, h1) => ([.allocate MaxSize false], .ub, { c with alloc := a1 }, h1)
      | some _ => ([], .ok (), c, h)
    match r with
    | (ev, .ok (), c1, h1) =>
      match c1.data with
      | none => (ev, .ub, c1, h1)
      | some d =>
        match construct ⟨d.blk, d.off + c1.size⟩ value h1 with
        | none => (ev, .ub, c1, h1)
        | some h2 => (ev, .ok (), { c1 with size := c1.size + 1 }, h2)
    | other => other

/-- The loop of the destructor (lines 79-81) from index `i` with `fuel` iterations to go: the
destructor calls made, in order, and the heap afterwards (`none`: undefined behaviour). -/
def destroy_loop (d : Ptr) (i fuel : Nat) (h : Heap T) : List Event × Option (Heap T) :=
  match fuel with
  | 0 => ([], some h)
  | fuel + 1 =>
    match destroy ⟨d.blk, d.off + i⟩ h with
    | none => ([.destroy ⟨d.blk, d.off + i⟩], none)
    | some h1 =>
      ((Event.destroy ⟨d.blk, d.off + i⟩) :: (destroy_loop d (i + 1) fuel h1).1,
        (destroy_loop d (i + 1) fuel h1).2)

/-- The body of the destructor (lines 77-84), with the calls it makes. The member `alloc` is
destroyed after the body, by `allocatorforme.delete`. -/
def delete (c : customContainer) (h : Heap T) :
    List Event × Outcome Unit × customContainer × Heap T :=
  match c.data with
  | none => ([], .ok (), c, h)
  | some d =>
    match destroy_loop d 0 c.size h with
    | (ev, none) => (ev, .ub, c, h)
    | (ev, some h1) =>
      match allocatorforme.deallocate (some d) c.size c.alloc h1 with
      | (r, a1, h2) => (ev ++ [.deallocate (some d) c.size], r, { c with alloc := a1 }, h2)

end customContainer

/-- A call of one of the public member functions of `customContainer`. -/
inductive Op (T : Type) where
  | push_back (value : T)
  | index (i : Nat)
  | getSize
  | empty

namespace customContainer

/-- One call on a container: the calls made on the allocator, how the call ends (the value
returned is dropped) and the states left. `getSize` and `empty` are `const`. -/
def apply (MaxSize sizeofT : Nat) (op : Op T) (c : customContainer) (h : Heap T) :
    List Event × Outcome Unit × customContainer × Heap T :=
  match op with
  | .push_back v => push_back_log MaxSize sizeofT v c h
  | .index i =>
    match operator_index i c h with
    | (.ok _, c1, h1) => ([], .ok (), c1, h1)
    | (.throw e, c1, h1) => ([], .throw e, c1, h1)
    | (.ub, c1, h1) => ([], .ub, c1, h1)
  | .getSize => ([], .ok (), c, h)
  | .empty => ([], .ok (), c, h)

/-- Whether a call is a `push_back` that returned normally (1) or not (0). -/
def appended (op : Op T) (r : Outcome Unit) : Nat :=
  match op, r with
  | .push_back _, .ok _ => 1
  | _, _ => 0

/-- A run of calls on a container: the calls made on its allocator, the number of
`push_back`s that returned, and the states at the end (`none` after undefined behaviour). -/
structure Run (T : Type) where
  events : List Event
  pushed : Nat
  final : Option (customContainer × Heap T)
  deriving DecidableEq, Repr

/-- Running a sequence of calls, the caller catching every exception and going on; the run
ends at the first call with undefined behaviour. -/
def run (MaxSize sizeofT : Nat) (ops : List (Op T)) (c : customContainer) (h : Heap T) : Run T :=
  match ops with
  | [] => ⟨[], 0, some (c, h)⟩
  | op :: rest =>
    match apply MaxSize sizeofT op c h with
    | (ev, .ub, _, _) => ⟨ev, 0, none⟩
    | (ev, r, c1, h1) =>
      ⟨ev ++ (run MaxSize sizeofT rest c1 h1).events,
        appended op r + (run MaxSize sizeofT rest c1 h1).pushed,
        (run MaxSize sizeofT rest c1 h1).final⟩

end customContainer

/-! ## `factorial` (lines 119-121) -/

/-- Least value of a 32-bit `int`. -/
def INT_MIN : Int := -(2 ^ 31)

/-- Greatest value of a 32-bit `int`. -/
def INT_MAX : Int := 2 ^ 31 - 1

/-- Multiplication of two `int`s: `none` when the product is not representable (signed
overflow, undefined behaviour). -/
def mul_int (a b : Int) : Option Int :=
  if INT_MIN ≤ a * b ∧ a * b ≤ INT_MAX then some (a * b) else none

/-- The function `factorial` (lines 119-121): `(n <= 1) ? 1 : n * factorial(n - 1)`.
`n - 1` cannot overflow since `n > 1` there. -/
def factorial (n : Int) : Option Int :=
  if n ≤ 1 then some 1
  else
    match factorial (n - 1) with
    | none => none
    | some r => mul_int n r
termination_by n.toNat
decreasing_by omega

/-- The values of `factorial` that `main` stores under the keys `0..9` (lines 136-138). -/
def factorial_table : List (Option Int) :=
  (List.range 10).map fun i => factorial (Int.ofNat i)

/-! ## A run used as an example -/

/-- A freshly constructed `customContainer<int, MaxSize, allocatorforme<int, BlockSize>>` on
the empty heap with the given future of `malloc`. -/
def fresh_container_with (BlockSize : Nat) (oracle : List Bool) : customContainer × Heap Int :=
  match customContainer.new BlockSize 4 (Heap.init oracle) with
  | (.ok c, h) => (c, h)
  | (_, h) => (⟨0, none, ⟨BlockSize, 0, none⟩⟩, h)

/-- Calls on a `customContainer<int, 2>`: two appends, a third one that finds the container
full, an access out of range, an access in range and the two queries. -/
def demo_ops : List (Op Int) :=
  [.push_back 7, .push_back 8, .push_back 9, .index 5, .index 1, .getSize, .empty]

/-- The number of elements currently live (constructed and not destroyed) in the block the
allocator holds, counted on the heap: the `constructed` of the data model, whatever the member
`allocated_elements` says. -/
def allocatorforme.live_elements (a : allocatorforme) (h : Heap T) : Nat :=
  match a.block with
  | none => 0
  | some b => (((h.blocks.getD b.blk []).drop b.off).filter Option.isSome).length

/-! ## The heap primitives -/

theorem malloc_ok (s bytes : Nat) (h : Heap T) (hf : h.mallocFails = false) :
    malloc s bytes h = (some ⟨h.blocks.length, 0⟩,
      { blocks := h.blocks ++ [List.replicate (bytes / s) none]
        released := h.released
        oracle := h.oracle.tail }) := by
  simp [malloc, hf]

theorem malloc_fail (s bytes : Nat) (h : Heap T) (hf : h.mallocFails = true) :
    malloc s bytes h = (none, { h with oracle := h.oracle.tail }) := by
  simp [malloc, hf]

theorem overwrite_nil (cells : List (Option T)) (off : Nat) : overwrite cells off [] = cells := by
  simp [overwrite]

theorem set_getD_self (l : List (List (Option T))) (b : Nat) (hb : b < l.length) :
    l.set b (l[b]?.getD []) = l := by
  apply List.ext_getElem?
  intro n
  rw [List.getElem?_set]
  split
  · rename_i hEq
    subst hEq
    simp [hb]
  · rfl

theorem memcpy_zero (s : Nat) (dst src : Ptr) (h : Heap T) (hd : h.live dst.blk)
    (hs : h.live src.blk) (hdo : dst.off ≤ h.slots dst.blk) (hso : src.off ≤ h.slots src.blk) :
    memcpy s dst src 0 h = some h := by
  simp [memcpy, hd, hs, hdo, hso, overwrite_nil, set_getD_self _ _ hd.1]

/-! ## `expand`, the constructor and `allocate` case by case -/

namespace allocatorforme

theorem expand_fail (s : Nat) (a : allocatorforme) (h : Heap T) (hf : h.mallocFails = true) :
    expand s a h = (.throw .bad_alloc, a, { h with oracle := h.oracle.tail }) := by
  simp [expand, malloc, hf]

theorem expand_null (s : Nat) (a : allocatorforme) (h : Heap T) (hf : h.mallocFails = false)
    (hb : a.block = none) :
    expand s a h = (.ok (),
      { a with block := some ⟨h.blocks.length, 0⟩
               current_block_size := (a.current_block_size * 2) % SIZE_MOD },
      { blocks := h.blocks ++
          [List.replicate ((a.current_block_size * 2) % SIZE_MOD * s % SIZE_MOD / s) none]
        released := h.released
        oracle := h.oracle.tail }) := by
  simp [expand, malloc, hf, hb]

theorem expand_live (s : Nat) (a : allocatorforme) (h : Heap T) (hf : h.mallocFails = false)
    (hwf : h.WF) (hz : a.allocated_elements = 0) (b : Nat) (hb : a.block = some ⟨b, 0⟩)
    (hlive : h.live b) :
    expand s a h = (.ok (),
      { a with block := some ⟨h.blocks.length, 0⟩
               current_block_size := (a.current_block_size * 2) % SIZE_MOD },
      { blocks := h.blocks ++
          [List.replicate ((a.current_block_size * 2) % SIZE_MOD * s % SIZE_MOD / s) none]
        released := h.released ++ [b]
        oracle := h.oracle.tail }) := by
  have hlt : b < h.blocks.length := hlive.1
  have hnr : b ∉ h.released := hlive.2
  have hnew : h.blocks.length ∉ h.released := fun hm => Nat.lt_irrefl _ (hwf _ hm)
  simp only [expand, malloc_ok _ _ _ hf, hb, hz, Nat.zero_mul, Nat.zero_mod]
  rw [memcpy_zero]
  · have hlt1 : b < h.blocks.length + 1 := by omega
    simp [free, Heap.live, hnr, hlt1]
  · simp [Heap.live, hnew]
  · simp [Heap.live, hnr]; omega
  · simp
  · simp

theorem new_ok (B s : Nat) (h : Heap T) (hf : h.mallocFails = false) :
    allocatorforme.new B s h = (.ok ⟨(B * 2) % SIZE_MOD, 0, some ⟨h.blocks.length, 0⟩⟩,
      { blocks := h.blocks ++ [List.replicate ((B * 2) % SIZE_MOD * s % SIZE_MOD / s) none]
        released := h.released
        oracle := h.oracle.tail }) := by
  simp only [allocatorforme.new]
  rw [expand_null _ _ _ hf rfl]

theorem new_fail (B s : Nat) (h : Heap T) (hf : h.mallocFails = true) :
    allocatorforme.new B s h = (.throw .bad_alloc, { h with oracle := h.oracle.tail }) := by
  simp only [allocatorforme.new]
  rw [expand_fail _ _ _ hf]

theorem Inv_new (B s : Nat) (h : Heap T) (hwf : h.WF) (a : allocatorforme) (h1 : Heap T)
    (hn : allocatorforme.new B s h = (.ok a, h1)) : a.Inv h1 := by
  cases hf : h.mallocFails
  · rw [new_ok _ _ _ hf] at hn
    simp only [Prod.mk.injEq, Outcome.ok.injEq] at hn
    obtain ⟨rfl, rfl⟩ := hn
    refine ⟨?_, rfl, h.blocks.length, rfl, ?_, ?_⟩
    · intro b hb
      have := hwf b hb
      simp; omega
    · simp
    · exact fun hm => Nat.lt_irrefl _ (hwf _ hm)
  · rw [new_fail _ _ _ hf] at hn
    simp at hn

theorem allocate_fits (s n : Nat) (a : allocatorforme) (h : Heap T)
    (hn : n ≤ a.current_block_size) :
    allocate s n a h = (.ok (ptrAdd a.block a.allocated_elements), a, h) := by
  simp [allocate, Nat.not_lt.mpr hn]

theorem allocate_fail (s n : Nat) (a : allocatorforme) (h : Heap T)
    (hn : n > a.current_block_size) (hf : h.mallocFails = true) :
    allocate s n a h = (.throw .bad_alloc, a, { h with oracle := h.oracle.tail }) := by
  simp only [allocate, hn, if_true]
  rw [expand_fail _ _ _ hf]

theorem allocate_grow (s n : Nat) (a : allocatorforme) (h : Heap T)
    (hn : n > a.current_block_size) (hf : h.mallocFails = false)
    (hwf : h.WF) (hz : a.allocated_elements = 0) (b : Nat) (hb : a.block = some ⟨b, 0⟩)
    (hlive : h.live b) :
    allocate s n a h = (.ok (some ⟨h.blocks.length, 0⟩),
      { a with block := some ⟨h.blocks.length, 0⟩
               current_block_size := (a.current_block_size * 2) % SIZE_MOD },
      { blocks := h.blocks ++
          [List.replicate ((a.current_block_size * 2) % SIZE_MOD * s % SIZE_MOD / s) none]
        released := h.released ++ [b]
        oracle := h.oracle.tail }) := by
  simp only [allocate, hn, if_true]
  rw [expand_live _ _ _ hf hwf hz b hb hlive]
  simp [ptrAdd, hz]

end allocatorforme

/-! ## What `allocate` throws, and `deallocate` -/

namespace allocatorforme

theorem expand_throw_of_ok (s : Nat) (a : allocatorforme) (h : Heap T)
    (hf : h.mallocFails = false) (e : Exn) : (expand s a h).1 ≠ .throw e := by
  simp only [expand, malloc_ok _ _ _ hf]
  cases a.block with
  | none => simp
  | some old =>
    simp only
    split
    · simp
    · split <;> simp

theorem allocate_throw_of_ok (s n : Nat) (a : allocatorforme) (h : Heap T)
    (hf : h.mallocFails = false) (e : Exn) : (allocate s n a h).1 ≠ .throw e := by
  unfold allocate
  split
  · have := expand_throw_of_ok s a h hf
    split
    · simp
    · rename_i e1 a1 h1 heq
      intro _
      exact this e1 (by rw [heq])
    · simp
  · simp

end allocatorforme

/-- C8: `deallocate(p, n)` is a no-op. For every allocator state, pointer and count it returns
normally leaving the members (`block`, `current_block_size`, `allocated_elements`) and the heap
(nothing is released) exactly as they were, so that any following `allocate` call gives the
same result as without the `deallocate`. -/
theorem deallocate_is_noop (p : Option Ptr) (n : Nat) (a : allocatorforme) (h : Heap T) :
    allocatorforme.deallocate p n a h = (.ok (), a, h) ∧
    ∀ s m : Nat,
      allocatorforme.allocate s m (allocatorforme.deallocate p n a h).2.1
          (allocatorforme.deallocate p n a h).2.2 =
        allocatorforme.allocate s m a h :=
  ⟨rfl, fun _ _ => rfl⟩

/-- C9: `allocate(n)` throws `std::bad_alloc` exactly when it has to grow
(`n > current_block_size`) and the system allocation of the doubled block fails. It throws
nothing else; and when it throws, `malloc` has been called once (no retry), the members are
those before the call and the heap holds the same blocks and releases as before. -/
theorem allocate_bad_alloc_iff (s n : Nat) (a : allocatorforme) (h : Heap T) :
    ((allocatorforme.allocate s n a h).1 = .throw .bad_alloc ↔
      (n > a.current_block_size ∧ h.mallocFails = true)) ∧
    (∀ e, (allocatorforme.allocate s n a h).1 = .throw e →
      e = .bad_alloc ∧ (allocatorforme.allocate s n a h).2.1 = a ∧
      (allocatorforme.allocate s n a h).2.2 = { h with oracle := h.oracle.tail }) := by
  by_cases hn : n > a.current_block_size
  · cases hf : h.mallocFails
    · have hne := allocatorforme.allocate_throw_of_ok s n a h hf
      refine ⟨⟨fun hc => absurd hc (hne _), fun hc => by simp at hc⟩,
        fun e hc => absurd hc (hne e)⟩
    · rw [allocatorforme.allocate_fail s n a h hn hf]
      refine ⟨⟨fun _ => ⟨hn, rfl⟩, fun _ => rfl⟩, fun e hc => ?_⟩
      simp only [Outcome.throw.injEq] at hc
      exact ⟨hc.symm, rfl, rfl⟩
  · rw [allocatorforme.allocate_fits s n a h (Nat.not_lt.mp hn)]
    refine ⟨⟨fun hc => by simp at hc, fun hc => absurd hc.1 hn⟩, fun e hc => by simp at hc⟩

/-! ## Preservation of the allocator invariants -/

theorem mallocFails_of_all_true (h : Heap T) (ho : ∀ x ∈ h.oracle, x = true) :
    h.mallocFails = false := by
  unfold Heap.mallocFails
  cases hc : h.oracle with
  | nil => rfl
  | cons x xs =>
    have : x = true := ho x (by rw [hc]; exact List.mem_cons_self _ _)
    subst this
    rfl

theorem all_true_tail (l : List Bool) (ho : ∀ x ∈ l, x = true) : ∀ x ∈ l.tail, x = true :=
  fun x hx => ho x (List.mem_of_mem_tail hx)

namespace allocatorforme

theorem Inv_oracle (a : allocatorforme) (h : Heap T) (o : List Bool) (hi : a.Inv h) :
    a.Inv { h with oracle := o } := hi

theorem Inv_grown (a : allocatorforme) (h : Heap T) (hi : a.Inv h) (b c : Nat)
    (hb : a.block = some ⟨b, 0⟩) (cells : List (Option T)) (o : List Bool) :
    Inv { a with block := some ⟨h.blocks.length, 0⟩, current_block_size := c }
      { blocks := h.blocks ++ [cells], released := h.released ++ [b], oracle := o } := by
  obtain ⟨hwf, hz, b1, hb1, hlt, hnr⟩ := hi
  rw [hb] at hb1
  simp only [Option.some.injEq, Ptr.mk.injEq, and_true] at hb1
  subst hb1
  refine ⟨?_, hz, h.blocks.length, rfl, ?_, ?_⟩
  · intro x hx
    simp only [List.mem_append, List.mem_singleton] at hx
    simp only [List.length_append, List.length_singleton]
    rcases hx with hx | hx
    · have := hwf x hx
      omega
    · omega
  · simp
  · simp only [List.mem_append, List.mem_singleton, not_or]
    exact ⟨fun hm => Nat.lt_irrefl _ (hwf _ hm), by omega⟩

/-- On a state satisfying the invariant `allocate` is one of three explicit steps. -/
theorem allocate_cases (s n : Nat) (a : allocatorforme) (h : Heap T) (hi : a.Inv h) :
    (n ≤ a.current_block_size ∧ allocate s n a h = (.ok a.block, a, h)) ∨
    (n > a.current_block_size ∧ h.mallocFails = true ∧
      allocate s n a h = (.throw .bad_alloc, a, { h with oracle := h.oracle.tail })) ∨
    (n > a.current_block_size ∧ h.mallocFails = false ∧ ∃ b, a.block = some ⟨b, 0⟩ ∧
      allocate s n a h = (.ok (some ⟨h.blocks.length, 0⟩),
        { a with block := some ⟨h.blocks.length, 0⟩
                 current_block_size := (a.current_block_size * 2) % SIZE_MOD },
        { blocks := h.blocks ++
            [List.replicate ((a.current_block_size * 2) % SIZE_MOD * s % SIZE_MOD / s) none]
          released := h.released ++ [b]
          oracle := h.oracle.tail })) := by
  obtain ⟨hwf, hz, b, hb, hlive⟩ := hi
  by_cases hn : n > a.current_block_size
  · cases hf : h.mallocFails
    · exact Or.inr (Or.inr ⟨hn, rfl, b, hb, allocate_grow s n a h hn hf hwf hz b hb hlive⟩)
    · exact Or.inr (Or.inl ⟨hn, rfl, allocate_fail s n a h hn hf⟩)
  · refine Or.inl ⟨Nat.not_lt.mp hn, ?_⟩
    rw [allocate_fits s n a h (Nat.not_lt.mp hn), hz, hb]
    rfl

theorem Inv_allocate (s n : Nat) (a : allocatorforme) (h : Heap T) (hi : a.Inv h)
    (r : Outcome (Option Ptr)) (a1 : allocatorforme) (h1 : Heap T)
    (hstep : allocate s n a h = (r, a1, h1)) : a1.Inv h1 ∧ r ≠ .ub := by
  rcases allocate_cases s n a h hi with ⟨_, he⟩ | ⟨_, _, he⟩ | ⟨_, _, b, hb, he⟩
  all_goals
    rw [he] at hstep
    simp only [Prod.mk.injEq] at hstep
    obtain ⟨rfl, rfl, rfl⟩ := hstep
  · exact ⟨hi, by simp⟩
  · exact ⟨Inv_oracle a h _ hi, by simp⟩
  · exact ⟨Inv_grown a h hi b _ hb _ _, by simp⟩

theorem construct_frame (p : Ptr) (v : T) (h h1 : Heap T) (hc : construct p v h = some h1) :
    h1.blocks.length = h.blocks.length ∧ h1.released = h.released ∧ h1.oracle = h.oracle := by
  unfold construct at hc
  split at hc
  · simp only [Option.some.injEq] at hc
    subst hc
    simp
  · simp at hc

theorem Inv_construct (a : allocatorforme) (p : Ptr) (v : T) (h h1 : Heap T)
    (hc : construct p v h = some h1) (hi : a.Inv h) : a.Inv h1 := by
  obtain ⟨hl, hr, _⟩ := construct_frame p v h h1 hc
  obtain ⟨hwf, hz, b, hb, hlt, hnr⟩ := hi
  refine ⟨?_, hz, b, hb, ?_, ?_⟩
  · intro x hx
    rw [hr] at hx
    rw [hl]
    exact hwf x hx
  · rw [hl]; exact hlt
  · rw [hr]; exact hnr

theorem Reachable_Inv {B s : Nat} {h0 : Heap T} {a : allocatorforme} {h : Heap T}
    (hr : Reachable B s h0 a h) : a.Inv h := by
  induction hr with
  | ctor hwf hn => exact Inv_new B s h0 hwf _ _ hn
  | allocate n _ hstep ih => exact (Inv_allocate s n _ _ ih _ _ _ hstep).1
  | deallocate p n _ hstep ih =>
    simp only [deallocate, Prod.mk.injEq] at hstep
    obtain ⟨_, rfl, rfl⟩ := hstep
    exact ih
  | construct p v _ hc ih => exact Inv_construct _ p v _ _ hc ih

end allocatorforme

/-! ## Growth doubling -/

namespace allocatorforme

theorem force_growths_ok (s : Nat) (K : Nat) :
    ∀ (a : allocatorforme) (h : Heap T), a.Inv h → (∀ x ∈ h.oracle, x = true) →
      a.current_block_size * 2 ^ K < SIZE_MOD →
      ∃ a1 h1, force_growths s K a h = (.ok (), a1, h1) ∧
        a1.current_block_size = a.current_block_size * 2 ^ K ∧
        h1.blocks.length = h.blocks.length + K := by
  induction K with
  | zero => intro a h _ _ _; exact ⟨a, h, rfl, by simp, rfl⟩
  | succ K ih =>
    intro a h hi ho hlt
    have hf := mallocFails_of_all_true h ho
    obtain ⟨hwf, hz, b, hb, hlive⟩ := hi
    have hstep := allocate_grow s (a.current_block_size + 1) a h (Nat.lt_succ_self _) hf hwf hz
      b hb hlive
    have hpow : a.current_block_size * 2 ^ (K + 1) = a.current_block_size * 2 * 2 ^ K := by
      rw [pow_succ]; ring
    have hpos : 0 < 2 ^ K := Nat.pow_pos (by decide)
    have hsmall : a.current_block_size * 2 < SIZE_MOD := by
      have : a.current_block_size * 2 ≤ a.current_block_size * 2 * 2 ^ K :=
        Nat.le_mul_of_pos_right _ hpos
      omega
    have hmod : a.current_block_size * 2 % SIZE_MOD = a.current_block_size * 2 :=
      Nat.mod_eq_of_lt hsmall
    have hi1 := Inv_grown a h ⟨hwf, hz, b, hb, hlive⟩ b (a.current_block_size * 2 % SIZE_MOD) hb
      (List.replicate ((a.current_block_size * 2) % SIZE_MOD * s % SIZE_MOD / s) none)
      h.oracle.tail
    obtain ⟨a1, h1, hrun, hcap, hlen⟩ := ih _ _ hi1 (all_true_tail _ ho)
      (by simp only [hmod]; rw [← hpow]; exact hlt)
    refine ⟨a1, h1, ?_, ?_, ?_⟩
    · simp only [force_growths, hstep]
      exact hrun
    · rw [hcap, hpow]
      simp only [hmod]
    · rw [hlen]
      simp only [List.length_append, List.length_singleton]
      omega

end allocatorforme

/-- C6, as the code has it: the constructor initialises the capacity to `BlockSize` and at once
grows, so a freshly constructed allocator has capacity `2 × BlockSize` (its first block has
that many elements' worth of bytes requested), and after `K` further growths forced through
`allocate` the capacity is `BlockSize × 2^(K+1)` — provided `malloc` succeeds and the
product does not overflow `size_t`. Each growth obtains exactly one block from the system. -/
theorem capacity_after_growths (B K s : Nat) (h0 : Heap T) (hwf : h0.WF)
    (ho : ∀ x ∈ h0.oracle, x = true) (hlt : B * 2 ^ (K + 1) < SIZE_MOD) :
    ∃ a0 h1 a h,
      allocatorforme.new B s h0 = (.ok a0, h1) ∧
      a0.current_block_size = 2 * B ∧
      allocatorforme.force_growths s K a0 h1 = (.ok (), a, h) ∧
      a.current_block_size = B * 2 ^ (K + 1) ∧
      h.blocks.length = h0.blocks.length + 1 + K := by
  have hf := mallocFails_of_all_true h0 ho
  have hnew := allocatorforme.new_ok B s h0 hf
  have hpos : 0 < 2 ^ K := Nat.pow_pos (by decide)
  have hpow : B * 2 ^ (K + 1) = B * 2 * 2 ^ K := by rw [pow_succ]; ring
  have hsmall : B * 2 < SIZE_MOD := by
    have : B * 2 ≤ B * 2 * 2 ^ K := Nat.le_mul_of_pos_right _ hpos
    omega
  have hmod : B * 2 % SIZE_MOD = B * 2 := Nat.mod_eq_of_lt hsmall
  have hi := allocatorforme.Inv_new B s h0 hwf _ _ hnew
  obtain ⟨a, h, hrun, hcap, hlen⟩ := allocatorforme.force_growths_ok s K _ _ hi
    (all_true_tail _ ho) (by simp only [hmod]; rw [← hpow]; exact hlt)
  refine ⟨_, _, a, h, hnew, ?_, hrun, ?_, ?_⟩
  · simp only [hmod]; ring
  · rw [hcap, hpow]; simp only [hmod]
  · rw [hlen]; simp

/-- C6 witness: `allocatorforme<int, 10>` on the empty heap, three forced growths: capacity
`10 × 2^4 = 160`. -/
theorem capacity_after_growths_witness :
    ∃ a0 h1 a h,
      allocatorforme.new 10 4 (Heap.init [] : Heap Int) = (.ok a0, h1) ∧
      a0.current_block_size = 2 * 10 ∧
      allocatorforme.force_growths 4 3 a0 h1 = (.ok (), a, h) ∧
      a.current_block_size = 10 * 2 ^ (3 + 1) ∧
      h.blocks.length = (Heap.init [] : Heap Int).blocks.length + 1 + 3 :=
  capacity_after_growths 10 3 4 (Heap.init []) (by simp [Heap.WF, Heap.init])
    (by simp [Heap.init]) (by decide)

/-- C6 counterexample: a freshly constructed `allocatorforme<int, 10>` has capacity 20, not
its `BlockSize` 10 (that is `InitialSize × 2^K` for `K = 0` forced growths). -/
theorem fresh_capacity_is_doubled :
    ((fresh_allocator 10 []).1.block ≠ none ∧
      (fresh_allocator 10 []).1.current_block_size = 20) ∧
    ¬ ((fresh_allocator 10 []).1.current_block_size = 10 * 2 ^ 0) := by
  decide

/-! ## Every block is released exactly once -/

namespace allocatorforme

theorem Owns_new (B s : Nat) (h0 : Heap T) (hwf : h0.WF) (a : allocatorforme) (h : Heap T)
    (hn : allocatorforme.new B s h0 = (.ok a, h)) :
    a.Owns h0.blocks.length h0.released h := by
  have hi := Inv_new B s h0 hwf a h hn
  cases hf : h0.mallocFails
  · rw [new_ok _ _ _ hf] at hn
    simp only [Prod.mk.injEq, Outcome.ok.injEq] at hn
    obtain ⟨rfl, rfl⟩ := hn
    refine ⟨hi, by simp, ?_, ?_, fun b _ => rfl⟩
    · intro b hb
      simp only [Option.some.injEq, Ptr.mk.injEq, and_true] at hb
      omega
    · intro b hb1 hb2 hb3
      simp only [List.length_append, List.length_singleton] at hb2
      simp only [ne_eq, Option.some.injEq, Ptr.mk.injEq, and_true] at hb3
      omega
  · rw [new_fail _ _ _ hf] at hn
    simp at hn

theorem Owns_allocate (s n n0 : Nat) (r0 : List Nat) (a : allocatorforme) (h : Heap T)
    (ho : a.Owns n0 r0 h) (r : Outcome (Option Ptr)) (a1 : allocatorforme) (h1 : Heap T)
    (hstep : allocate s n a h = (r, a1, h1)) : a1.Owns n0 r0 h1 := by
  obtain ⟨hi, hlen, hcur, hold, hpre⟩ := ho
  rcases allocate_cases s n a h hi with ⟨_, he⟩ | ⟨_, _, he⟩ | ⟨_, _, b, hb, he⟩
  all_goals
    rw [he] at hstep
    simp only [Prod.mk.injEq] at hstep
    obtain ⟨rfl, rfl, rfl⟩ := hstep
  · exact ⟨hi, hlen, hcur, hold, hpre⟩
  · exact ⟨Inv_oracle a h _ hi, hlen, hcur, hold, hpre⟩
  · have hnb : n0 ≤ b := hcur b hb
    have hbl : b < h.blocks.length := by
      obtain ⟨_, _, b1, hb1, hl, _⟩ := hi
      rw [hb] at hb1
      simp only [Option.some.injEq, Ptr.mk.injEq, and_true] at hb1
      omega
    have hbn : b ∉ h.released := by
      obtain ⟨_, _, b1, hb1, _, hnr⟩ := hi
      rw [hb] at hb1
      simp only [Option.some.injEq, Ptr.mk.injEq, and_true] at hb1
      rw [hb1]; exact hnr
    refine ⟨Inv_grown a h hi b _ hb _ _, ?_, ?_, ?_, ?_⟩
    · simp only [List.length_append, List.length_singleton]; omega
    · intro x hx
      simp only [Option.some.injEq, Ptr.mk.injEq, and_true] at hx
      omega
    · intro x hx1 hx2 hx3
      simp only [List.length_append, List.length_singleton] at hx2
      simp only [ne_eq, Option.some.injEq, Ptr.mk.injEq, and_true] at hx3
      have hxl : x < h.blocks.length := by omega
      rw [List.count_append, List.count_singleton]
      by_cases hxb : x = b
      · subst hxb
        simp [List.count_eq_zero_of_not_mem hbn]
      · have := hold x hx1 hxl (by rw [hb]; simp; exact fun hh => hxb hh.symm)
        have hne : (b == x) = false := by simp; exact fun hh => hxb hh.symm
        simp [this, hne]
    · intro x hx
      rw [List.count_append, List.count_singleton]
      have hne : (b == x) = false := by simp; omega
      simp [hne, hpre x hx]

theorem Owns_construct (n0 : Nat) (r0 : List Nat) (a : allocatorforme) (p : Ptr) (v : T)
    (h h1 : Heap T) (hc : construct p v h = some h1) (ho : a.Owns n0 r0 h) :
    a.Owns n0 r0 h1 := by
  obtain ⟨hl, hr, _⟩ := construct_frame p v h h1 hc
  obtain ⟨hi, hlen, hcur, hold, hpre⟩ := ho
  refine ⟨Inv_construct a p v h h1 hc hi, by rw [hl]; exact hlen, hcur, ?_, ?_⟩
  · intro b hb1 hb2 hb3
    rw [hr]
    exact hold b hb1 (by rw [← hl]; exact hb2) hb3
  · intro b hb
    rw [hr]
    exact hpre b hb

theorem Reachable_Owns {B s : Nat} {h0 : Heap T} {a : allocatorforme} {h : Heap T}
    (hr : Reachable B s h0 a h) : a.Owns h0.blocks.length h0.released h := by
  induction hr with
  | ctor hwf hn => exact Owns_new B s h0 hwf _ _ hn
  | allocate n _ hstep ih => exact Owns_allocate s n _ _ _ _ ih _ _ _ hstep
  | deallocate p n _ hstep ih =>
    simp only [deallocate, Prod.mk.injEq] at hstep
    obtain ⟨_, rfl, rfl⟩ := hstep
    exact ih
  | construct p v _ hc ih => exact Owns_construct _ _ _ p v _ _ hc ih

end allocatorforme

/-- C10, as the code has it: over the heap with its record of released blocks, for every
allocator state reachable from construction, the destructor returns normally and afterwards
every block obtained from the system since construction has been released exactly once (the
old block at each growth, the current block by the destructor), blocks that existed before
are released no more often than they were, and the destructor leaves the member `block`
as it was: still pointing at the block it has just released, not nulled. -/
theorem teardown_releases_each_block_once {B s : Nat} {h0 : Heap T} {a : allocatorforme}
    {h : Heap T} (hr : allocatorforme.Reachable B s h0 a h) :
    ∃ h1 b,
      allocatorforme.delete a h = (.ok (), a, h1) ∧
      h1.blocks = h.blocks ∧
      (∀ x, h0.blocks.length ≤ x → x < h1.blocks.length → h1.released.count x = 1) ∧
      (∀ x, x < h0.blocks.length → h1.released.count x = h0.released.count x) ∧
      a.block = some ⟨b, 0⟩ ∧ b ∈ h1.released := by
  obtain ⟨hi, hlen, hcur, hold, hpre⟩ := allocatorforme.Reachable_Owns hr
  obtain ⟨hwf, hz, b, hb, hlt, hnr⟩ := hi
  have hnb : h0.blocks.length ≤ b := hcur b hb
  refine ⟨{ h with released := h.released ++ [b] }, b, ?_, rfl, ?_, ?_, hb, by simp⟩
  · simp [allocatorforme.delete, hz, allocatorforme.destroyFrom, hb, free, Heap.live, hlt, hnr]
  · intro x hx1 hx2
    show (h.released ++ [b]).count x = 1
    rw [List.count_append, List.count_singleton]
    by_cases hxb : x = b
    · subst hxb
      simp [List.count_eq_zero_of_not_mem hnr]
    · have := hold x hx1 hx2 (by rw [hb]; simp; exact fun hh => hxb hh.symm)
      have hne : (b == x) = false := by simp; exact fun hh => hxb hh.symm
      simp [this, hne]
  · intro x hx
    show (h.released ++ [b]).count x = h0.released.count x
    rw [List.count_append, List.count_singleton]
    have hne : (b == x) = false := by simp; omega
    simp [hne, hpre x hx]

/-- C10 witness: `allocatorforme<int, 1>` constructed on the empty heap and grown once by
`allocate(3)`. -/
theorem teardown_releases_each_block_once_witness :
    ∃ h1 b,
      allocatorforme.delete (⟨4, 0, some ⟨1, 0⟩⟩ : allocatorforme)
          (⟨[[none, none], [none, none, none, none]], [0], []⟩ : Heap Int) =
        (.ok (), ⟨4, 0, some ⟨1, 0⟩⟩, h1) ∧
      h1.blocks = [[none, none], [none, none, none, none]] ∧
      (∀ x, (Heap.init [] : Heap Int).blocks.length ≤ x → x < h1.blocks.length →
        h1.released.count x = 1) ∧
      (∀ x, x < (Heap.init [] : Heap Int).blocks.length →
        h1.released.count x = (Heap.init [] : Heap Int).released.count x) ∧
      (⟨4, 0, some ⟨1, 0⟩⟩ : allocatorforme).block = some ⟨b, 0⟩ ∧ b ∈ h1.released :=
  teardown_releases_each_block_once
    (@allocatorforme.Reachable.allocate Int 1 4 (Heap.init [])
      ⟨2, 0, some ⟨0, 0⟩⟩ ⟨[[none, none]], [], []⟩ 3 (.ok (some ⟨1, 0⟩))
      ⟨4, 0, some ⟨1, 0⟩⟩ ⟨[[none, none], [none, none, none, none]], [0], []⟩
      (@allocatorforme.Reachable.ctor Int 1 4 (Heap.init [])
        ⟨2, 0, some ⟨0, 0⟩⟩ ⟨[[none, none]], [], []⟩
        (by simp [Heap.WF, Heap.init]) (by decide))
      (by decide))

/-- C10 counterexample: after the destructor of a fresh `allocatorforme<int, 1>` has released
block 0, the member `block` is not null: it still points at the released block, and running
the destructor body once more releases that block again (undefined behaviour). -/
theorem block_dangles_after_teardown :
    allocatorforme.delete (fresh_allocator 1 []).1 (fresh_allocator 1 []).2 =
      (.ok (), ⟨2, 0, some ⟨0, 0⟩⟩, ⟨[[none, none]], [0], []⟩) ∧
    (allocatorforme.delete (fresh_allocator 1 []).1 (fresh_allocator 1 []).2).2.1.block ≠ none ∧
    (allocatorforme.delete (⟨2, 0, some ⟨0, 0⟩⟩ : allocatorforme)
      (⟨[[none, none]], [0], []⟩ : Heap Int)).1 = .ub := by
  decide

/-! ## `allocate` hands out the same slot again -/

/-- C5 fails on the code: on a fresh `allocatorforme<int, 10>` a client calls `allocate(1)`,
constructs the element 7 in the slot returned and calls `allocate(1)` again. Both calls return
slot 0 of block 0, the slot that holds the 7, instead of the next free slot 1:
`allocated_elements` is still 0. -/
theorem second_allocate_returns_same_slot :
    allocate_construct_allocate 4 1 [7] (fresh_allocator 10 []).1 (fresh_allocator 10 []).2 =
      some (⟨0, 0⟩, ⟨0, 0⟩, ⟨20, 0, some ⟨0, 0⟩⟩,
        ⟨[some 7 :: List.replicate 19 none], [], []⟩) ∧
    load (⟨[some 7 :: List.replicate 19 none], [], []⟩ : Heap Int) ⟨0, 0⟩ = some 7 := by
  decide

/-- C7 fails on the code: on a fresh `allocatorforme<int, 1>` (capacity 2) a client calls
`allocate(2)`, constructs 7 and 8 in slots 0 and 1 and calls `allocate(3)`, which grows the
block. `expand` copies `allocated_elements = 0` elements, so slots 0 and 1 of the new block
(block 1) hold no element, and the old block (block 0) is released. -/
theorem growth_loses_constructed_elements :
    allocate_construct_allocate 4 3 [7, 8] (fresh_allocator 1 []).1 (fresh_allocator 1 []).2 =
      some (⟨0, 0⟩, ⟨1, 0⟩, ⟨4, 0, some ⟨1, 0⟩⟩,
        ⟨[[some 7, some 8], [none, none, none, none]], [0], []⟩) ∧
    load (⟨[[some 7, some 8], [none, none, none, none]], [0], []⟩ : Heap Int) ⟨1, 0⟩ = none ∧
    load (⟨[[some 7, some 8], [none, none, none, none]], [0], []⟩ : Heap Int) ⟨1, 1⟩ = none ∧
    load (⟨[[some 7, some 8], [none, none, none, none]], [0], []⟩ : Heap Int) ⟨0, 0⟩ = none := by
  decide

/-! ## `push_back` on a full container -/

/-- C2: in every container state with `size == MaxSize` (reachable or not), `push_back` of any
value throws `std::runtime_error` and leaves the container and the heap exactly as they were:
same `size`, same `data`, same allocator, same elements. -/
theorem push_back_full_throws (MaxSize s : Nat) (v : T) (c : customContainer) (h : Heap T)
    (hfull : c.size = MaxSize) :
    customContainer.push_back MaxSize s v c h = (.throw .runtime_error, c, h) := by
  simp [customContainer.push_back, hfull]

/-- C2 witness: the 11th append to `my_custom_container` (`MaxSize = 10`, holding `0..9`). -/
theorem push_back_full_throws_witness :
    my_custom_container.1 = .ok () ∧ my_custom_container.2.1.size = 10 ∧
    customContainer.push_back 10 4 (10 : Int) my_custom_container.2.1 my_custom_container.2.2 =
      (.throw .runtime_error, my_custom_container.2.1, my_custom_container.2.2) :=
  ⟨by decide, by decide,
    push_back_full_throws 10 4 10 my_custom_container.2.1 my_custom_container.2.2 (by decide)⟩

/-! ## `push_back` step by step -/

theorem construct_cell_same (p : Ptr) (v : T) (h h1 : Heap T)
    (hc : construct p v h = some h1) : h1.cell p.blk p.off = some v := by
  unfold construct at hc
  split at hc
  · rename_i hcond
    obtain ⟨⟨hlt, _⟩, hoff⟩ := hcond
    simp only [Option.some.injEq] at hc
    subst hc
    simp only [Heap.slots, List.getD_eq_getElem?_getD] at hoff
    have hoff1 : p.off < (h.blocks[p.blk]).length := by simpa [hlt] using hoff
    simp [Heap.cell, List.getD_eq_getElem?_getD, hlt, List.getElem?_set, hoff1]
  · simp at hc

theorem construct_cell_other (p : Ptr) (v : T) (h h1 : Heap T)
    (hc : construct p v h = some h1) (b i : Nat) (hne : b ≠ p.blk ∨ i ≠ p.off) :
    h1.cell b i = h.cell b i := by
  unfold construct at hc
  split at hc
  · rename_i hcond
    obtain ⟨⟨hlt, _⟩, hoff⟩ := hcond
    simp only [Option.some.injEq] at hc
    subst hc
    simp only [Heap.cell, List.getD_eq_getElem?_getD]
    by_cases hb : b = p.blk
    · subst hb
      have hi : i ≠ p.off := by
        rcases hne with hne | hne
        · exact absurd rfl hne
        · exact hne
      simp [hlt, List.getElem?_set, Ne.symm hi]
    · simp [List.getElem?_set, Ne.symm hb]
  · simp at hc

namespace customContainer

theorem push_back_data (MaxSize s : Nat) (v : T) (c : customContainer) (h : Heap T)
    (hlt : c.size < MaxSize) (d : Ptr) (hd : c.data = some d) :
    push_back MaxSize s v c h =
      match construct ⟨d.blk, d.off + c.size⟩ v h with
      | none => (.ub, c, h)
      | some h2 => (.ok (), { c with size := c.size + 1 }, h2) := by
  simp only [push_back, ge_iff_le, Nat.not_le.mpr hlt, if_false, hd]

theorem push_back_null (MaxSize s : Nat) (v : T) (c : customContainer) (h : Heap T)
    (hlt : c.size < MaxSize) (hd : c.data = none) :
    push_back MaxSize s v c h =
      match allocatorforme.allocate s MaxSize c.alloc h with
      | (.ok none, a1, h1) => (.ub, { c with data := none, alloc := a1 }, h1)
      | (.ok (some d), a1, h1) =>
        match construct ⟨d.blk, d.off + c.size⟩ v h1 with
        | none => (.ub, { c with data := some d, alloc := a1 }, h1)
        | some h2 => (.ok (), { size := c.size + 1, data := some d, alloc := a1 }, h2)
      | (.throw e, a1, h1) => (.throw e, { c with alloc := a1 }, h1)
      | (.ub, a1, h1) => (.ub, { c with alloc := a1 }, h1) := by
  simp only [push_back, ge_iff_le, Nat.not_le.mpr hlt, if_false, hd]
  rcases hres : allocatorforme.allocate s MaxSize c.alloc h with ⟨r, a1, h1⟩
  cases r with
  | ok p =>
    cases p with
    | none => rfl
    | some d => rfl
  | throw e => rfl
  | ub => rfl

end customContainer

/-! ## Preservation of the container invariant -/

namespace customContainer

theorem Inv_fresh (MaxSize B s : Nat) (h0 : Heap T) (hwf : h0.WF) (c : customContainer)
    (h : Heap T) (hn : customContainer.new B s h0 = (.ok c, h)) : Inv MaxSize [] c h := by
  unfold customContainer.new at hn
  rcases hres : allocatorforme.new B s h0 with ⟨r, h1⟩
  rw [hres] at hn
  cases r with
  | ok a =>
    simp only [Prod.mk.injEq, Outcome.ok.injEq] at hn
    obtain ⟨rfl, rfl⟩ := hn
    exact ⟨allocatorforme.Inv_new B s h0 hwf a h1 hres, rfl, Nat.zero_le _, fun _ => rfl,
      fun d hd => by simp at hd⟩
  | throw e => simp at hn
  | ub => simp at hn

theorem Inv_push_data (MaxSize : Nat) (vs : List T) (v : T) (c : customContainer)
    (h h2 : Heap T) (hi : Inv MaxSize vs c h) (hlt : c.size < MaxSize) (d : Ptr)
    (hd : c.data = some d) (hc : construct ⟨d.blk, d.off + c.size⟩ v h = some h2) :
    Inv MaxSize (vs ++ [v]) { c with size := c.size + 1 } h2 := by
  obtain ⟨hai, hsz, _, _, hcells⟩ := hi
  obtain ⟨hblk, hold⟩ := hcells d hd
  refine ⟨allocatorforme.Inv_construct _ _ v h h2 hc hai, by simp [hsz], ?_, ?_, ?_⟩
  · simp only [List.length_append, List.length_singleton]; omega
  · intro hnone
    simp only at hnone
    rw [hd] at hnone
    simp at hnone
  · intro d1 hd1
    simp only at hd1
    rw [hd] at hd1
    simp only [Option.some.injEq] at hd1
    subst hd1
    refine ⟨hblk, fun i w hw => ?_⟩
    by_cases hil : i < vs.length
    · rw [List.getElem?_append_left hil] at hw
      have := construct_cell_other _ v h h2 hc d.blk (d.off + i) (Or.inr (by simp; omega))
      rw [this]
      exact hold i w hw
    · by_cases hie : i = vs.length
      · subst hie
        simp only [List.getElem?_concat_length, Option.some.injEq] at hw
        subst hw
        have := construct_cell_same _ v h h2 hc
        simp only at this
        rw [← hsz]
        exact this
      · have : (vs ++ [v])[i]? = none := by
          apply List.getElem?_eq_none
          simp only [List.length_append, List.length_singleton]; omega
        rw [this] at hw
        simp at hw

theorem Inv_push_back (MaxSize s : Nat) (vs : List T) (v : T) (c : customContainer)
    (h : Heap T) (hi : Inv MaxSize vs c h) (r : Outcome Unit) (c1 : customContainer)
    (h1 : Heap T) (hstep : push_back MaxSize s v c h = (r, c1, h1)) :
    (r = .ok () → Inv MaxSize (vs ++ [v]) c1 h1) ∧ (∀ e, r = .throw e → Inv MaxSize vs c1 h1) := by
  by_cases hfull : c.size ≥ MaxSize
  · simp only [push_back, hfull, if_true, Prod.mk.injEq] at hstep
    obtain ⟨rfl, rfl, rfl⟩ := hstep
    exact ⟨fun hc => by simp at hc, fun _ _ => hi⟩
  · have hlt : c.size < MaxSize := Nat.not_le.mp hfull
    cases hd : c.data with
    | some d =>
      rw [push_back_data MaxSize s v c h hlt d hd] at hstep
      cases hc : construct ⟨d.blk, d.off + c.size⟩ v h with
      | none =>
        rw [hc] at hstep
        simp only [Prod.mk.injEq] at hstep
        obtain ⟨rfl, _, _⟩ := hstep
        exact ⟨fun hh => by simp at hh, fun e hh => by simp at hh⟩
      | some h2 =>
        rw [hc] at hstep
        simp only [Prod.mk.injEq] at hstep
        obtain ⟨rfl, rfl, rfl⟩ := hstep
        exact ⟨fun _ => Inv_push_data MaxSize vs v c h h2 hi hlt d hd hc,
          fun e hh => by simp at hh⟩
    | none =>
      rw [push_back_null MaxSize s v c h hlt hd] at hstep
      obtain ⟨hai, hsz, hle, hnil, hcells⟩ := hi
      have hvs : vs = [] := hnil hd
      subst hvs
      rcases hres : allocatorforme.allocate s MaxSize c.alloc h with ⟨ra, a1, ha1⟩
      obtain ⟨hai1, _⟩ := allocatorforme.Inv_allocate s MaxSize c.alloc h hai ra a1 ha1 hres
      have hptr : ∀ p, ra = .ok p → p = a1.block := by
        intro p hp
        rcases allocatorforme.allocate_cases s MaxSize c.alloc h hai with
          ⟨_, he⟩ | ⟨_, _, he⟩ | ⟨_, _, b, hb, he⟩
        all_goals
          rw [he] at hres
          simp only [Prod.mk.injEq] at hres
          obtain ⟨rfl, rfl, rfl⟩ := hres
        · simp only [Outcome.ok.injEq] at hp; exact hp.symm
        · simp at hp
        · simp only [Outcome.ok.injEq] at hp; exact hp.symm
      rw [hres] at hstep
      cases ra with
      | ub =>
        simp only [Prod.mk.injEq] at hstep
        obtain ⟨rfl, _, _⟩ := hstep
        exact ⟨fun hh => by simp at hh, fun e hh => by simp at hh⟩
      | throw e =>
        simp only [Prod.mk.injEq] at hstep
        obtain ⟨rfl, rfl, rfl⟩ := hstep
        refine ⟨fun hh => by simp at hh, fun _ _ => ⟨hai1, hsz, hle, fun _ => rfl, ?_⟩⟩
        intro d hd1
        simp only at hd1
        rw [hd] at hd1
        simp at hd1
      | ok p =>
        cases p with
        | none =>
          simp only [Prod.mk.injEq] at hstep
          obtain ⟨rfl, _, _⟩ := hstep
          exact ⟨fun hh => by simp at hh, fun e hh => by simp at hh⟩
        | some d =>
          simp only at hstep
          cases hc : construct ⟨d.blk, d.off + c.size⟩ v ha1 with
          | none =>
            rw [hc] at hstep
            simp only [Prod.mk.injEq] at hstep
            obtain ⟨rfl, _, _⟩ := hstep
            exact ⟨fun hh => by simp at hh, fun e hh => by simp at hh⟩
          | some h2 =>
            rw [hc] at hstep
            simp only [Prod.mk.injEq] at hstep
            obtain ⟨rfl, rfl, rfl⟩ := hstep
            refine ⟨fun _ => ?_, fun e hh => by simp at hh⟩
            have hmid : Inv MaxSize ([] : List T) { c with data := some d, alloc := a1 } ha1 :=
              ⟨hai1, hsz, hle, fun _ => rfl,
                fun d1 hd1 => by
                  simp only [Option.some.injEq] at hd1
                  subst hd1
                  exact ⟨(hptr _ rfl).symm, fun i w hw => by simp at hw⟩⟩
            exact Inv_push_data MaxSize [] v { c with data := some d, alloc := a1 } ha1 h2
              hmid hlt d rfl hc

theorem operator_index_state (i : Nat) (c : customContainer) (h : Heap T) :
    (operator_index i c h).2 = (c, h) := by
  unfold operator_index
  split
  · rfl
  · split <;> rfl

theorem Inv_of_Reachable {MaxSize B s : Nat} {vs : List T} {c : customContainer} {h : Heap T}
    (hr : Reachable MaxSize B s vs c h) : Inv MaxSize vs c h := by
  induction hr with
  | fresh hwf hn => exact Inv_fresh MaxSize B s _ hwf _ _ hn
  | push_ok v _ hstep ih => exact (Inv_push_back MaxSize s _ v _ _ ih _ _ _ hstep).1 rfl
  | push_throw v _ hstep ih => exact (Inv_push_back MaxSize s _ v _ _ ih _ _ _ hstep).2 _ rfl
  | @index vs0 c0 h0 i r c1 h1 _ hstep ih =>
    have := operator_index_state i c0 h0
    rw [hstep] at this
    simp only [Prod.mk.injEq] at this
    obtain ⟨rfl, rfl⟩ := this
    exact ih

theorem Reachable_push_all (MaxSize B s : Nat) (ws : List T) :
    ∀ (vs : List T) (c : customContainer) (h : Heap T) (c1 : customContainer) (h1 : Heap T),
      Reachable MaxSize B s vs c h → push_all MaxSize s ws c h = (.ok (), c1, h1) →
      Reachable MaxSize B s (vs ++ ws) c1 h1 := by
  induction ws with
  | nil =>
    intro vs c h c1 h1 hr hrun
    simp only [push_all, Prod.mk.injEq, true_and] at hrun
    obtain ⟨rfl, rfl⟩ := hrun
    simpa using hr
  | cons w rest ih =>
    intro vs c h c1 h1 hr hrun
    rcases hstep : push_back MaxSize s w c h with ⟨r, c2, h2⟩
    simp only [push_all, hstep] at hrun
    cases r with
    | ok u =>
      have := ih (vs ++ [w]) c2 h2 c1 h1 (Reachable.push_ok w hr hstep) hrun
      simpa using this
    | throw e => simp at hrun
    | ub => simp at hrun

end customContainer

/-! ## `operator[]` -/

theorem index_of_Inv {MaxSize : Nat} {vs : List T} {c : customContainer}
    {h : Heap T} (hinv : customContainer.Inv MaxSize vs c h) (i : Nat) :
    c.size = vs.length ∧
    ((customContainer.operator_index i c h).1 = .throw .out_of_range ↔ i ≥ c.size) ∧
    (customContainer.operator_index i c h).2 = (c, h) ∧
    (i < c.size → ∃ d v, c.data = some d ∧
      customContainer.operator_index i c h = (.ok ⟨d.blk, d.off + i⟩, c, h) ∧
      vs[i]? = some v ∧ load h ⟨d.blk, d.off + i⟩ = some v ∧
      customContainer.read i c h = .ok v) := by
  obtain ⟨hai, hsz, _, hnil, hcells⟩ := hinv
  refine ⟨hsz, ?_, customContainer.operator_index_state i c h, ?_⟩
  · constructor
    · intro hthrow
      by_contra hlt
      simp only [customContainer.operator_index, hlt, if_false] at hthrow
      cases hd : c.data with
      | none => rw [hd] at hthrow; simp at hthrow
      | some d => rw [hd] at hthrow; simp at hthrow
    · intro hge
      simp [customContainer.operator_index, hge]
  · intro hlt
    cases hd : c.data with
    | none =>
      have := hnil hd
      subst this
      simp at hsz
      omega
    | some d =>
      obtain ⟨hblk, hold⟩ := hcells d hd
      have hil : i < vs.length := by omega
      have hv : vs[i]? = some vs[i] := List.getElem?_eq_getElem hil
      have hcell := hold i _ hv
      obtain ⟨_, _, b, hb, hlive⟩ := hai
      rw [hblk] at hb
      simp only [Option.some.injEq] at hb
      subst hb
      have hop : customContainer.operator_index i c h = (.ok ⟨b, 0 + i⟩, c, h) := by
        simp [customContainer.operator_index, Nat.not_le.mpr hlt, hd]
      have hload : load h ⟨b, 0 + i⟩ = some vs[i] := by
        simp only [load, hlive, if_true]
        exact hcell
      refine ⟨_, vs[i], rfl, hop, hv, hload, ?_⟩
      simp only [customContainer.read, hop, hload]

/-- C3: in every reachable container state (holding the appended values `vs`, so
`size = vs.length`, the empty container included) and for every index `i`: `operator[](i)`
throws `std::out_of_range` if and only if `i >= size`; it never changes the container or the
heap; and when `i < size` it returns the reference to slot `data[i]` itself (offset `i`, no
adjustment), which holds the live element `vs[i]`. -/
theorem operator_index_spec {MaxSize B s : Nat} {vs : List T} {c : customContainer}
    {h : Heap T} (hr : customContainer.Reachable MaxSize B s vs c h) (i : Nat) :
    c.size = vs.length ∧
    ((customContainer.operator_index i c h).1 = .throw .out_of_range ↔ i ≥ c.size) ∧
    (customContainer.operator_index i c h).2 = (c, h) ∧
    (i < c.size → ∃ d v, c.data = some d ∧
      customContainer.operator_index i c h = (.ok ⟨d.blk, d.off + i⟩, c, h) ∧
      vs[i]? = some v ∧ load h ⟨d.blk, d.off + i⟩ = some v ∧
      customContainer.read i c h = .ok v) :=
  index_of_Inv (customContainer.Inv_of_Reachable hr) i

/-- C3 witness: `my_custom_container` of `main` (holding `0..9`) at index 3. -/
theorem operator_index_spec_witness :
    my_custom_container.2.1.size = (upto 10).length ∧
    ((customContainer.operator_index 3 my_custom_container.2.1 my_custom_container.2.2).1 =
        .throw .out_of_range ↔ 3 ≥ my_custom_container.2.1.size) ∧
    (customContainer.operator_index 3 my_custom_container.2.1 my_custom_container.2.2).2 =
      (my_custom_container.2.1, my_custom_container.2.2) ∧
    (3 < my_custom_container.2.1.size → ∃ d v, my_custom_container.2.1.data = some d ∧
      customContainer.operator_index 3 my_custom_container.2.1 my_custom_container.2.2 =
        (.ok ⟨d.blk, d.off + 3⟩, my_custom_container.2.1, my_custom_container.2.2) ∧
      (upto 10)[3]? = some v ∧ load my_custom_container.2.2 ⟨d.blk, d.off + 3⟩ = some v ∧
      customContainer.read 3 my_custom_container.2.1 my_custom_container.2.2 = .ok v) :=
  operator_index_spec
    (customContainer.Reachable_push_all 10 10 4 (upto 10) [] (fresh_container 10).1
      (fresh_container 10).2 my_custom_container.2.1 my_custom_container.2.2
      (@customContainer.Reachable.fresh Int 10 10 4 (Heap.init []) (fresh_container 10).1
        (fresh_container 10).2 (by simp [Heap.WF, Heap.init]) (by decide))
      (by decide))
    3

/-! ## The block reserved by the first `push_back` can be too small -/

/-- C4 fails on the code: for `customContainer<int, 41>` with the default allocator
`allocatorforme<int>` (`BlockSize = 10`) the first `push_back` calls `allocate(41)` on an
allocator of capacity 20; `expand` runs once, so afterwards the capacity is 40, the block
behind `data` has 40 slots, which is less than `MaxSize = 41`, and constructing at index 40
lies outside the block. -/
theorem first_push_back_underprovisions :
    filled 41 10 [0] =
      (.ok (), ⟨1, some ⟨1, 0⟩, ⟨40, 0, some ⟨1, 0⟩⟩⟩,
        ⟨[List.replicate 20 none, some 0 :: List.replicate 39 none], [0], []⟩) ∧
    (filled 41 10 [0]).2.1.alloc.current_block_size < 41 ∧
    (filled 41 10 [0]).2.2.slots 1 = 40 ∧
    construct ⟨1, 40⟩ (40 : Int) (filled 41 10 [0]).2.2 = none := by
  decide

/-- C1 fails on the code: appending the 41 values `0..40` to a fresh
`customContainer<int, 41>` with the default `allocatorforme<int>`: the first 40 calls return,
the 41st `push_back` constructs outside the 40-slot block (undefined behaviour) and `size`
is still 40. -/
theorem push_back_41_overruns_block :
    (filled 41 10 (upto 40)).1 = .ok () ∧ (filled 41 10 (upto 40)).2.1.size = 40 ∧
    (customContainer.push_back 41 4 (40 : Int) (filled 41 10 (upto 40)).2.1
      (filled 41 10 (upto 40)).2.2).1 = .ub ∧
    (filled 41 10 (upto 41)).1 = .ub ∧ (filled 41 10 (upto 41)).2.1.size = 40 := by
  decide

/-! ## Where the reserved block is large enough -/

theorem slots_of_bytes (c s : Nat) (hs : 0 < s) (hlt : c * s < SIZE_MOD) :
    c % SIZE_MOD * s % SIZE_MOD / s = c := by
  have hc : c < SIZE_MOD := lt_of_le_of_lt (Nat.le_mul_of_pos_right c hs) hlt
  rw [Nat.mod_eq_of_lt hc, Nat.mod_eq_of_lt hlt, Nat.mul_div_cancel c hs]

theorem construct_slots (p : Ptr) (v : T) (h h1 : Heap T) (hc : construct p v h = some h1)
    (b : Nat) : h1.slots b = h.slots b := by
  unfold construct at hc
  split at hc
  · rename_i hcond
    have hlt := hcond.1.1
    simp only [Option.some.injEq] at hc
    subst hc
    by_cases hb : p.blk = b
    · subst hb
      simp [Heap.slots, List.getD_eq_getElem?_getD, hlt]
    · simp [Heap.slots, List.getD_eq_getElem?_getD, List.getElem?_set, hb]
  · simp at hc

theorem construct_in_bounds (p : Ptr) (v : T) (h : Heap T) (hl : h.live p.blk)
    (ho : p.off < h.slots p.blk) : ∃ h1, construct p v h = some h1 := by
  simp [construct, hl, ho]

theorem slots_appended (blocks : List (List (Option T))) (cells : List (Option T))
    (r : List Nat) (o : List Bool) :
    (⟨blocks ++ [cells], r, o⟩ : Heap T).slots blocks.length = cells.length := by
  simp [Heap.slots, List.getD_eq_getElem?_getD]

namespace customContainer

theorem push_all_room (MaxSize s : Nat) (ws : List T) :
    ∀ (vs : List T) (c : customContainer) (h : Heap T) (d : Ptr),
      Inv MaxSize vs c h → c.data = some d → d.off + MaxSize ≤ h.slots d.blk →
      vs.length + ws.length ≤ MaxSize →
      ∃ c1 h1, push_all MaxSize s ws c h = (.ok (), c1, h1) ∧ Inv MaxSize (vs ++ ws) c1 h1 := by
  induction ws with
  | nil =>
    intro vs c h d hi _ _ _
    exact ⟨c, h, rfl, by simpa using hi⟩
  | cons w rest ih =>
    intro vs c h d hi hd hroom hlen
    simp only [List.length_cons] at hlen
    have hsz : c.size = vs.length := hi.2.1
    have hlt : c.size < MaxSize := by omega
    have hlive : h.live d.blk := by
      obtain ⟨⟨_, _, b, hb, hl⟩, _, _, _, hcells⟩ := hi
      have := (hcells d hd).1
      rw [hb] at this
      simp only [Option.some.injEq] at this
      subst this
      exact hl
    obtain ⟨h2, hc⟩ := construct_in_bounds ⟨d.blk, d.off + c.size⟩ w h hlive
      (by simp only; omega)
    have hstep : push_back MaxSize s w c h = (.ok (), { c with size := c.size + 1 }, h2) := by
      rw [push_back_data MaxSize s w c h hlt d hd, hc]
    have hi2 := Inv_push_data MaxSize vs w c h h2 hi hlt d hd hc
    obtain ⟨c1, h1, hrun, hi1⟩ := ih (vs ++ [w]) { c with size := c.size + 1 } h2 d hi2 hd
      (by rw [construct_slots _ w h h2 hc]; exact hroom)
      (by simp only [List.length_append, List.length_singleton]; omega)
    refine ⟨c1, h1, ?_, by simpa using hi1⟩
    simp only [push_all, hstep]
    exact hrun

/-- The first `push_back` on a container without storage whose allocator has a current block
of `current_block_size` slots: when `MaxSize` is at most twice that capacity, the block behind
`data` afterwards has room for `MaxSize` elements. -/
theorem push_back_first_room (MaxSize s : Nat) (v : T) (c : customContainer) (h : Heap T)
    (hi : Inv MaxSize [] c h) (hd : c.data = none) (hpos : 0 < MaxSize) (hs : 0 < s)
    (ho : ∀ x ∈ h.oracle, x = true) (b : Nat) (hb : c.alloc.block = some ⟨b, 0⟩)
    (hslots : h.slots b = c.alloc.current_block_size)
    (hM : MaxSize ≤ c.alloc.current_block_size * 2)
    (hov : c.alloc.current_block_size * 2 * s < SIZE_MOD) :
    ∃ c1 h1 d, push_back MaxSize s v c h = (.ok (), c1, h1) ∧ Inv MaxSize [v] c1 h1 ∧
      c1.data = some d ∧ d.off + MaxSize ≤ h1.slots d.blk := by
  have hsz : c.size = 0 := hi.2.1
  have hlt : c.size < MaxSize := by omega
  have hai := hi.1
  have hfin : ∀ (a1 : allocatorforme) (h1 : Heap T) (d : Ptr),
      allocatorforme.allocate s MaxSize c.alloc h = (.ok (some d), a1, h1) →
      d.off = 0 → MaxSize ≤ h1.slots d.blk →
      ∃ c1 h2 d1, push_back MaxSize s v c h = (.ok (), c1, h2) ∧ Inv MaxSize [v] c1 h2 ∧
        c1.data = some d1 ∧ d1.off + MaxSize ≤ h2.slots d1.blk := by
    intro a1 h1 d hal hoff hroom
    obtain ⟨hai1, _⟩ := allocatorforme.Inv_allocate s MaxSize c.alloc h hai _ a1 h1 hal
    have hblk : a1.block = some d := by
      rcases allocatorforme.allocate_cases s MaxSize c.alloc h hai with
        ⟨_, he⟩ | ⟨_, _, he⟩ | ⟨_, _, b1, hb1, he⟩
      all_goals
        rw [he] at hal
        simp only [Prod.mk.injEq, Outcome.ok.injEq] at hal
      · obtain ⟨hp, rfl, rfl⟩ := hal; exact hp
      · exact absurd hal.1 (by simp)
      · obtain ⟨hp, rfl, rfl⟩ := hal; exact hp
    have hlive : h1.live d.blk := by
      obtain ⟨_, _, b1, hb1, hl⟩ := hai1
      rw [hblk] at hb1
      simp only [Option.some.injEq] at hb1
      subst hb1
      exact hl
    obtain ⟨h2, hc⟩ := construct_in_bounds ⟨d.blk, d.off + c.size⟩ v h1 hlive
      (by simp only; omega)
    have hmid : Inv MaxSize ([] : List T) { c with data := some d, alloc := a1 } h1 :=
      ⟨hai1, hsz, Nat.zero_le _, fun _ => rfl,
        fun d1 hd1 => by
          simp only [Option.some.injEq] at hd1
          subst hd1
          exact ⟨hblk, fun i w hw => by simp at hw⟩⟩
    refine ⟨{ size := c.size + 1, data := some d, alloc := a1 }, h2, d, ?_, ?_, rfl, ?_⟩
    · rw [push_back_null MaxSize s v c h hlt hd, hal]
      simp only [hc]
    · exact Inv_push_data MaxSize [] v { c with data := some d, alloc := a1 } h1 h2
        hmid hlt d rfl hc
    · rw [construct_slots _ v h1 h2 hc, hoff]
      omega
  by_cases hfit : MaxSize ≤ c.alloc.current_block_size
  · have hal := allocatorforme.allocate_fits s MaxSize c.alloc h hfit
    rw [hai.2.1, hb] at hal
    exact hfin c.alloc h ⟨b, 0⟩ hal rfl (by rw [hslots]; exact hfit)
  · obtain ⟨hwf, hz, b1, hb1, hl1⟩ := hai
    have hal := allocatorforme.allocate_grow s MaxSize c.alloc h (Nat.not_le.mp hfit)
      (mallocFails_of_all_true h ho) hwf hz b1 hb1 hl1
    refine hfin _ _ ⟨h.blocks.length, 0⟩ hal rfl ?_
    rw [slots_appended, List.length_replicate, slots_of_bytes _ s hs hov]
    exact hM

end customContainer

/-- Where C1 does hold: for `MaxSize ≤ 4 × BlockSize` (the block the allocator has after at
most one growth), `sizeof(T) > 0`, no `size_t` overflow in the byte count of that block and a
`malloc` that succeeds, appending any `N ≤ MaxSize` values to a freshly constructed container
returns normally each time, `getSize()` is `N` and `c[i]` reads the `i`-th appended value. -/
theorem push_all_within_four_blocks (MaxSize B s : Nat) (h0 : Heap T) (hwf : h0.WF)
    (ho : ∀ x ∈ h0.oracle, x = true) (hs : 0 < s) (hM : MaxSize ≤ 4 * B)
    (hov : 4 * B * s < SIZE_MOD) (vs : List T) (hN : vs.length ≤ MaxSize) :
    ∃ c0 h1 c h,
      customContainer.new B s h0 = (.ok c0, h1) ∧
      customContainer.push_all MaxSize s vs c0 h1 = (.ok (), c, h) ∧
      c.getSize = vs.length ∧
      ∀ i v, vs[i]? = some v → customContainer.read i c h = .ok v := by
  have hf := mallocFails_of_all_true h0 ho
  have hnew := allocatorforme.new_ok B s h0 hf
  have h2B : B * 2 * s < SIZE_MOD := by nlinarith
  have hcap : B * 2 % SIZE_MOD = B * 2 :=
    Nat.mod_eq_of_lt (lt_of_le_of_lt (Nat.le_mul_of_pos_right _ hs) h2B)
  have hcnew : customContainer.new B s h0 =
      (.ok ⟨0, none, ⟨(B * 2) % SIZE_MOD, 0, some ⟨h0.blocks.length, 0⟩⟩⟩,
        { blocks := h0.blocks ++ [List.replicate ((B * 2) % SIZE_MOD * s % SIZE_MOD / s) none]
          released := h0.released
          oracle := h0.oracle.tail }) := by
    simp only [customContainer.new, hnew]
  have hi0 := customContainer.Inv_fresh MaxSize B s h0 hwf _ _ hcnew
  have hread : ∀ (c : customContainer) (h : Heap T), customContainer.Inv MaxSize vs c h →
      c.getSize = vs.length ∧ ∀ i v, vs[i]? = some v → customContainer.read i c h = .ok v := by
    intro c h hinv
    refine ⟨hinv.2.1, fun i v hv => ?_⟩
    have hil : i < vs.length := by
      by_contra hge
      rw [List.getElem?_eq_none (Nat.not_lt.mp hge)] at hv
      simp at hv
    obtain ⟨hsz, _, _, hget⟩ := index_of_Inv hinv i
    obtain ⟨d, w, _, _, hw, _, hr⟩ := hget (by omega)
    rw [hv] at hw
    simp only [Option.some.injEq] at hw
    subst hw
    exact hr
  cases vs with
  | nil => exact ⟨_, _, _, _, hcnew, rfl, (hread _ _ hi0).1, (hread _ _ hi0).2⟩
  | cons v rest =>
    simp only [List.length_cons] at hN
    obtain ⟨c1, h1, d, hstep, hi1, hd1, hroom⟩ :=
      customContainer.push_back_first_room MaxSize s v _ _ hi0 rfl (by omega) hs
        (all_true_tail _ ho) h0.blocks.length rfl
        (by rw [slots_appended, List.length_replicate, slots_of_bytes _ s hs h2B, hcap])
        (by simp only [hcap]; omega)
        (by simp only [hcap]; nlinarith)
    obtain ⟨c2, h2, hrun, hi2⟩ := customContainer.push_all_room MaxSize s rest [v] c1 h1 d
      hi1 hd1 hroom (by simp only [List.length_singleton]; omega)
    refine ⟨_, _, c2, h2, hcnew, ?_, (hread _ _ hi2).1, (hread _ _ hi2).2⟩
    simp only [customContainer.push_all, hstep]
    exact hrun

/-! ## `factorial` -/

theorem factorial_le_one (n : Int) (h : n ≤ 1) : factorial n = some 1 := by
  rw [factorial]; simp [h]

theorem factorial_step (n : Int) (h : 1 < n) :
    factorial n = (factorial (n - 1)).bind (mul_int n) := by
  rw [factorial]
  have : ¬ n ≤ 1 := by omega
  simp only [this, if_false]
  cases factorial (n - 1) <;> rfl

/-- C18: for every `int` `n` with `0 <= n <= 12`, `factorial(n)` returns `n!`, no product on
the way leaving the range of a 32-bit `int` (an overflow would give `none`); for every
`n <= 1`, negative `n` included, `factorial(n) = 1`; and the values stored by `main` under the
keys `0..9` are `1, 1, 2, 6, 24, 120, 720, 5040, 40320, 362880`. -/
theorem factorial_values (n : Int) :
    (0 ≤ n → n ≤ 12 → factorial n = some (Nat.factorial n.toNat : Nat)) ∧
    (n ≤ 1 → factorial n = some 1) ∧
    factorial_table =
      [some 1, some 1, some 2, some 6, some 24, some 120, some 720, some 5040, some 40320,
        some 362880] := by
  refine ⟨fun h0 h12 => ?_, factorial_le_one n, ?_⟩
  · interval_cases n <;>
      simp [factorial_step, factorial_le_one, mul_int, INT_MIN, INT_MAX, Nat.factorial]
  · simp [factorial_table, List.range, List.range.loop, factorial_step, factorial_le_one,
      mul_int, INT_MIN, INT_MAX]

/-- C18 witness: `factorial(12) = 12! = 479001600` and `factorial(-3) = 1`. -/
theorem factorial_values_witness :
    factorial 12 = some (Nat.factorial (12 : Int).toNat : Nat) ∧
    (Nat.factorial (12 : Int).toNat : Int) = 479001600 ∧
    factorial (-3) = some 1 :=
  ⟨(factorial_values 12).1 (by decide) (by decide), by decide,
    (factorial_values (-3)).2.1 (by decide)⟩

/-! ## The constructed count never moves -/

/-- C15: in every allocator state reachable from construction by `allocate` and `deallocate`
calls (and constructions by the client in between), `0 <= allocated_elements <=
current_block_size`. It holds because `allocated_elements` is 0 throughout. -/
theorem constructed_le_capacity {B s : Nat} {h0 : Heap T} {a : allocatorforme} {h : Heap T}
    (hr : allocatorforme.Reachable B s h0 a h) :
    0 ≤ a.allocated_elements ∧ a.allocated_elements ≤ a.current_block_size := by
  have hz := (allocatorforme.Reachable_Inv hr).2.1
  omega

/-- C15 witness: `allocatorforme<int, 1>` constructed on the empty heap, then `allocate(3)`
(one growth) and `deallocate`. -/
theorem constructed_le_capacity_witness :
    0 ≤ (⟨4, 0, some ⟨1, 0⟩⟩ : allocatorforme).allocated_elements ∧
    (⟨4, 0, some ⟨1, 0⟩⟩ : allocatorforme).allocated_elements ≤
      (⟨4, 0, some ⟨1, 0⟩⟩ : allocatorforme).current_block_size :=
  constructed_le_capacity
    (@allocatorforme.Reachable.deallocate Int 1 4 (Heap.init [])
      ⟨4, 0, some ⟨1, 0⟩⟩ ⟨[[none, none], [none, none, none, none]], [0], []⟩
      (some ⟨1, 0⟩) 3 (.ok ())
      ⟨4, 0, some ⟨1, 0⟩⟩ ⟨[[none, none], [none, none, none, none]], [0], []⟩
      (@allocatorforme.Reachable.allocate Int 1 4 (Heap.init [])
        ⟨2, 0, some ⟨0, 0⟩⟩ ⟨[[none, none]], [], []⟩ 3 (.ok (some ⟨1, 0⟩))
        ⟨4, 0, some ⟨1, 0⟩⟩ ⟨[[none, none], [none, none, none, none]], [0], []⟩
        (@allocatorforme.Reachable.ctor Int 1 4 (Heap.init [])
          ⟨2, 0, some ⟨0, 0⟩⟩ ⟨[[none, none]], [], []⟩
          (by simp [Heap.WF, Heap.init]) (by decide))
        (by decide))
      (by decide))

/-- C19: no member function changes `allocated_elements`: in every reachable allocator state
it is 0 and it is 0 after any `allocate(n)`; every `allocate(n)` that returns gives the start
of the block the allocator then holds (offset 0); and when `allocate` grows the block, the
byte count handed to `memcpy` is that of 0 elements and the new block holds no element. -/
theorem allocated_elements_stays_zero {B s : Nat} {h0 : Heap T} {a : allocatorforme}
    {h : Heap T} (hr : allocatorforme.Reachable B s h0 a h) (n : Nat) :
    a.allocated_elements = 0 ∧
    (allocatorforme.allocate s n a h).2.1.allocated_elements = 0 ∧
    (∀ p, (allocatorforme.allocate s n a h).1 = .ok p →
      p = (allocatorforme.allocate s n a h).2.1.block ∧ ∃ b, p = some ⟨b, 0⟩) ∧
    (a.allocated_elements * s) % SIZE_MOD = 0 ∧
    (n > a.current_block_size → h.mallocFails = false →
      ∃ k, (allocatorforme.allocate s n a h).2.2.blocks = h.blocks ++ [List.replicate k none]) := by
  have hi := allocatorforme.Reachable_Inv hr
  have hz : a.allocated_elements = 0 := hi.2.1
  obtain ⟨b0, hb0, _⟩ := hi.2.2
  refine ⟨hz, ?_, ?_, by simp [hz], ?_⟩
  · rcases allocatorforme.allocate_cases s n a h hi with ⟨_, he⟩ | ⟨_, _, he⟩ | ⟨_, _, b, _, he⟩ <;>
      rw [he] <;> exact hz
  · intro p hp
    rcases allocatorforme.allocate_cases s n a h hi with ⟨_, he⟩ | ⟨_, _, he⟩ | ⟨_, _, b, _, he⟩
    · rw [he] at hp ⊢
      simp only [Outcome.ok.injEq] at hp
      exact ⟨hp.symm, b0, by rw [← hp, hb0]⟩
    · rw [he] at hp
      simp at hp
    · rw [he] at hp ⊢
      simp only [Outcome.ok.injEq] at hp
      exact ⟨hp.symm, h.blocks.length, hp.symm⟩
  · intro hn hf
    rcases allocatorforme.allocate_cases s n a h hi with ⟨hle, _⟩ | ⟨_, hf1, _⟩ | ⟨_, _, b, _, he⟩
    · omega
    · rw [hf] at hf1
      simp at hf1
    · rw [he]
      exact ⟨_, rfl⟩

/-- C19 witness: the fresh `allocatorforme<int, 1>` on the empty heap and `allocate(3)`. -/
theorem allocated_elements_stays_zero_witness :
    (⟨2, 0, some ⟨0, 0⟩⟩ : allocatorforme).allocated_elements = 0 ∧
    (allocatorforme.allocate 4 3 ⟨2, 0, some ⟨0, 0⟩⟩
      (⟨[[none, none]], [], []⟩ : Heap Int)).2.1.allocated_elements = 0 ∧
    (∀ p, (allocatorforme.allocate 4 3 ⟨2, 0, some ⟨0, 0⟩⟩
        (⟨[[none, none]], [], []⟩ : Heap Int)).1 = .ok p →
      p = (allocatorforme.allocate 4 3 ⟨2, 0, some ⟨0, 0⟩⟩
        (⟨[[none, none]], [], []⟩ : Heap Int)).2.1.block ∧ ∃ b, p = some ⟨b, 0⟩) ∧
    ((⟨2, 0, some ⟨0, 0⟩⟩ : allocatorforme).allocated_elements * 4) % SIZE_MOD = 0 ∧
    (3 > (⟨2, 0, some ⟨0, 0⟩⟩ : allocatorforme).current_block_size →
      (⟨[[none, none]], [], []⟩ : Heap Int).mallocFails = false →
      ∃ k, (allocatorforme.allocate 4 3 ⟨2, 0, some ⟨0, 0⟩⟩
        (⟨[[none, none]], [], []⟩ : Heap Int)).2.2.blocks =
          (⟨[[none, none]], [], []⟩ : Heap Int).blocks ++ [List.replicate k none]) :=
  allocated_elements_stays_zero
    (@allocatorforme.Reachable.ctor Int 1 4 (Heap.init [])
      ⟨2, 0, some ⟨0, 0⟩⟩ ⟨[[none, none]], [], []⟩
      (by simp [Heap.WF, Heap.init]) (by decide))
    3

/-! ## One doubling per `allocate` -/

/-- The converse of the growth condition fails on the code: on a fresh
`allocatorforme<int, 10>` (capacity 20) a client calls `allocate(15)`, constructs 15 elements
in the block and calls `allocate(10)`. Only `20 − 15 = 5` slots are free, yet the call does not
grow the block (the test is `n > current_block_size`) and returns slot 0 again. -/
theorem allocate_ignores_live_elements :
    allocate_construct_allocate 4 10 (upto 15) (fresh_allocator 10 []).1
        (fresh_allocator 10 []).2 =
      some (⟨0, 0⟩, ⟨0, 0⟩, ⟨20, 0, some ⟨0, 0⟩⟩,
        ⟨[(upto 15).map some ++ List.replicate 5 none], [], []⟩) ∧
    allocatorforme.live_elements ⟨20, 0, some ⟨0, 0⟩⟩
      (⟨[(upto 15).map some ++ List.replicate 5 none], [], []⟩ : Heap Int) = 15 ∧
    (⟨20, 0, some ⟨0, 0⟩⟩ : allocatorforme).current_block_size -
      allocatorforme.live_elements ⟨20, 0, some ⟨0, 0⟩⟩
        (⟨[(upto 15).map some ++ List.replicate 5 none], [], []⟩ : Heap Int) < 10 := by
  decide

/-! ## The calls made by `push_back` -/

namespace customContainer

theorem push_back_log_full (MaxSize s : Nat) (v : T) (c : customContainer) (h : Heap T)
    (hfull : c.size ≥ MaxSize) :
    push_back_log MaxSize s v c h = ([], .throw .runtime_error, c, h) := by
  simp [push_back_log, hfull]

theorem push_back_log_data (MaxSize s : Nat) (v : T) (c : customContainer) (h : Heap T)
    (hlt : c.size < MaxSize) (d : Ptr) (hd : c.data = some d) :
    push_back_log MaxSize s v c h =
      match construct ⟨d.blk, d.off + c.size⟩ v h with
      | none => ([], .ub, c, h)
      | some h2 => ([], .ok (), { c with size := c.size + 1 }, h2) := by
  simp only [push_back_log, ge_iff_le, Nat.not_le.mpr hlt, if_false, hd]

theorem push_back_log_null (MaxSize s : Nat) (v : T) (c : customContainer) (h : Heap T)
    (hlt : c.size < MaxSize) (hd : c.data = none) :
    push_back_log MaxSize s v c h =
      match allocatorforme.allocate s MaxSize c.alloc h with
      | (.ok none, a1, h1) =>
        ([.allocate MaxSize true], .ub, { c with data := none, alloc := a1 }, h1)
      | (.ok (some d), a1, h1) =>
        match construct ⟨d.blk, d.off + c.size⟩ v h1 with
        | none => ([.allocate MaxSize true], .ub, { c with data := some d, alloc := a1 }, h1)
        | some h2 =>
          ([.allocate MaxSize true], .ok (), { size := c.size + 1, data := some d, alloc := a1 },
            h2)
      | (.throw e, a1, h1) => ([.allocate MaxSize false], .throw e, { c with alloc := a1 }, h1)
      | (.ub, a1, h1) => ([.allocate MaxSize false], .ub, { c with alloc := a1 }, h1) := by
  simp only [push_back_log, ge_iff_le, Nat.not_le.mpr hlt, if_false, hd]
  rcases hres : allocatorforme.allocate s MaxSize c.alloc h with ⟨r, a1, h1⟩
  cases r with
  | ok p =>
    cases p with
    | none => rfl
    | some d => rfl
  | throw e => rfl
  | ub => rfl

/-- The instrumented `push_back` has the outcome and the states of `push_back`. -/
theorem push_back_log_snd (MaxSize s : Nat) (v : T) (c : customContainer) (h : Heap T) :
    (push_back_log MaxSize s v c h).2 = push_back MaxSize s v c h := by
  by_cases hfull : c.size ≥ MaxSize
  · rw [push_back_log_full MaxSize s v c h hfull]
    simp [push_back, hfull]
  · have hlt : c.size < MaxSize := Nat.not_le.mp hfull
    cases hd : c.data with
    | some d =>
      rw [push_back_log_data MaxSize s v c h hlt d hd, push_back_data MaxSize s v c h hlt d hd]
      cases construct ⟨d.blk, d.off + c.size⟩ v h <;> rfl
    | none =>
      rw [push_back_log_null MaxSize s v c h hlt hd, push_back_null MaxSize s v c h hlt hd]
      rcases allocatorforme.allocate s MaxSize c.alloc h with ⟨r, a1, h1⟩
      cases r with
      | ok p =>
        cases p with
        | none => rfl
        | some d =>
          simp only
          cases construct ⟨d.blk, d.off + c.size⟩ v h1 <;> rfl
      | throw e => rfl
      | ub => rfl

/-- Every call `push_back` makes on the allocator is `allocate(MaxSize)`, and it makes at most
one. -/
theorem push_back_log_events (MaxSize s : Nat) (v : T) (c : customContainer) (h : Heap T) :
    (push_back_log MaxSize s v c h).1 = [] ∨
    ∃ b, (push_back_log MaxSize s v c h).1 = [.allocate MaxSize b] := by
  by_cases hfull : c.size ≥ MaxSize
  · rw [push_back_log_full MaxSize s v c h hfull]
    exact Or.inl rfl
  · have hlt : c.size < MaxSize := Nat.not_le.mp hfull
    cases hd : c.data with
    | some d =>
      rw [push_back_log_data MaxSize s v c h hlt d hd]
      cases construct ⟨d.blk, d.off + c.size⟩ v h <;> exact Or.inl rfl
    | none =>
      rw [push_back_log_null MaxSize s v c h hlt hd]
      rcases allocatorforme.allocate s MaxSize c.alloc h with ⟨r, a1, h1⟩
      cases r with
      | ok p =>
        cases p with
        | none => exact Or.inr ⟨true, rfl⟩
        | some d =>
          simp only
          cases construct ⟨d.blk, d.off + c.size⟩ v h1 <;> exact Or.inr ⟨true, rfl⟩
      | throw e => exact Or.inr ⟨false, rfl⟩
      | ub => exact Or.inr ⟨false, rfl⟩

/-- In any state whatever, `push_back` does not lower `size` and does not change a `data`
that is set. -/
theorem push_back_size_data (MaxSize s : Nat) (v : T) (c : customContainer) (h : Heap T) :
    c.size ≤ (push_back MaxSize s v c h).2.1.size ∧
    (∀ d, c.data = some d → (push_back MaxSize s v c h).2.1.data = some d) := by
  by_cases hfull : c.size ≥ MaxSize
  · simp [push_back, hfull]
  · have hlt : c.size < MaxSize := Nat.not_le.mp hfull
    cases hd : c.data with
    | some d =>
      rw [push_back_data MaxSize s v c h hlt d hd]
      cases construct ⟨d.blk, d.off + c.size⟩ v h <;> simp [hd]
    | none =>
      rw [push_back_null MaxSize s v c h hlt hd]
      rcases allocatorforme.allocate s MaxSize c.alloc h with ⟨r, a1, h1⟩
      cases r with
      | ok p =>
        cases p with
        | none => simp
        | some d =>
          simp only
          cases construct ⟨d.blk, d.off + c.size⟩ v h1 <;> simp
      | throw e => simp
      | ub => simp

/-- What a `push_back` that returns or throws does to `size` and to `data`, and whether an
`allocate` call returned in it. -/
theorem push_back_log_step (MaxSize s : Nat) (v : T) (c : customContainer)
    (h : Heap T) (ev : List Event) (r : Outcome Unit)
    (c1 : customContainer) (h1 : Heap T)
    (hstep : push_back_log MaxSize s v c h = (ev, r, c1, h1)) :
    (r = .ok () → c1.size = c.size + 1 ∧ c1.data ≠ none ∧
      (ev.filter Event.isReturnedAllocate).length = (if c.data = none then 1 else 0)) ∧
    (∀ e, r = .throw e → c1.size = c.size ∧ c1.data = c.data ∧
      (ev.filter Event.isReturnedAllocate).length = 0) := by
  by_cases hfull : c.size ≥ MaxSize
  · rw [push_back_log_full MaxSize s v c h hfull] at hstep
    simp only [Prod.mk.injEq] at hstep
    obtain ⟨rfl, rfl, rfl, rfl⟩ := hstep
    exact ⟨fun hh => by simp at hh, fun _ _ => ⟨rfl, rfl, rfl⟩⟩
  · have hlt : c.size < MaxSize := Nat.not_le.mp hfull
    cases hd : c.data with
    | some d =>
      rw [push_back_log_data MaxSize s v c h hlt d hd] at hstep
      cases hc : construct ⟨d.blk, d.off + c.size⟩ v h with
      | none =>
        rw [hc] at hstep
        simp only [Prod.mk.injEq] at hstep
        obtain ⟨_, rfl, _, _⟩ := hstep
        exact ⟨fun hh => by simp at hh, fun e hh => by simp at hh⟩
      | some h2 =>
        rw [hc] at hstep
        simp only [Prod.mk.injEq] at hstep
        obtain ⟨rfl, rfl, rfl, rfl⟩ := hstep
        exact ⟨fun _ => ⟨rfl, by simp [hd], by simp⟩, fun e hh => by simp at hh⟩
    | none =>
      rw [push_back_log_null MaxSize s v c h hlt hd] at hstep
      rcases hres : allocatorforme.allocate s MaxSize c.alloc h with ⟨ra, a1, ha1⟩
      rw [hres] at hstep
      cases ra with
      | ub =>
        simp only [Prod.mk.injEq] at hstep
        obtain ⟨_, rfl, _, _⟩ := hstep
        exact ⟨fun hh => by simp at hh, fun e hh => by simp at hh⟩
      | throw e =>
        simp only [Prod.mk.injEq] at hstep
        obtain ⟨rfl, rfl, rfl, rfl⟩ := hstep
        exact ⟨fun hh => by simp at hh,
          fun _ _ => ⟨rfl, by simp [hd], by simp [Event.isReturnedAllocate]⟩⟩
      | ok p =>
        cases p with
        | none =>
          simp only [Prod.mk.injEq] at hstep
          obtain ⟨_, rfl, _, _⟩ := hstep
          exact ⟨fun hh => by simp at hh, fun e hh => by simp at hh⟩
        | some d =>
          simp only at hstep
          cases hc : construct ⟨d.blk, d.off + c.size⟩ v ha1 with
          | none =>
            rw [hc] at hstep
            simp only [Prod.mk.injEq] at hstep
            obtain ⟨_, rfl, _, _⟩ := hstep
            exact ⟨fun hh => by simp at hh, fun e hh => by simp at hh⟩
          | some h2 =>
            rw [hc] at hstep
            simp only [Prod.mk.injEq] at hstep
            obtain ⟨rfl, rfl, rfl, rfl⟩ := hstep
            exact ⟨fun _ => ⟨rfl, by simp, by simp [Event.isReturnedAllocate]⟩,
              fun e hh => by simp at hh⟩

end customContainer

/-! ## Runs of calls on a container -/

namespace customContainer

theorem fresh_empty (B s : Nat) (h0 : Heap T) (c : customContainer) (h : Heap T)
    (hn : customContainer.new B s h0 = (.ok c, h)) : c.size = 0 ∧ c.data = none := by
  unfold customContainer.new at hn
  rcases hres : allocatorforme.new B s h0 with ⟨r, h1⟩
  rw [hres] at hn
  cases r with
  | ok a =>
    simp only [Prod.mk.injEq, Outcome.ok.injEq] at hn
    obtain ⟨rfl, rfl⟩ := hn
    exact ⟨rfl, rfl⟩
  | throw e => simp at hn
  | ub => simp at hn

theorem apply_index (MaxSize s i : Nat) (c : customContainer) (h : Heap T) :
    ∃ r, apply MaxSize s (Op.index i : Op T) c h = ([], r, c, h) := by
  have hst := operator_index_state i c h
  rcases hres : operator_index i c h with ⟨r, c1, h1⟩
  rw [hres] at hst
  simp only [Prod.mk.injEq] at hst
  obtain ⟨rfl, rfl⟩ := hst
  simp only [apply, hres]
  cases r with
  | ok p => exact ⟨_, rfl⟩
  | throw e => exact ⟨_, rfl⟩
  | ub => exact ⟨_, rfl⟩

/-- In any state whatever, a call does not lower `size` and does not change a `data` that is
set. -/
theorem apply_size_data (MaxSize s : Nat) (op : Op T) (c : customContainer) (h : Heap T) :
    c.size ≤ (apply MaxSize s op c h).2.2.1.size ∧
    (∀ d, c.data = some d → (apply MaxSize s op c h).2.2.1.data = some d) := by
  cases op with
  | push_back v =>
    have := push_back_size_data MaxSize s v c h
    simp only [apply]
    rw [push_back_log_snd]
    exact this
  | index i =>
    obtain ⟨r, hr⟩ := apply_index MaxSize s i c h
    rw [hr]
    exact ⟨Nat.le_refl _, fun d hd => hd⟩
  | getSize => exact ⟨Nat.le_refl _, fun d hd => hd⟩
  | empty => exact ⟨Nat.le_refl _, fun d hd => hd⟩

theorem apply_events (MaxSize s : Nat) (op : Op T) (c : customContainer) (h : Heap T) :
    (apply MaxSize s op c h).1 = [] ∨
    ∃ b, (apply MaxSize s op c h).1 = [.allocate MaxSize b] := by
  cases op with
  | push_back v => exact push_back_log_events MaxSize s v c h
  | index i =>
    obtain ⟨r, hr⟩ := apply_index MaxSize s i c h
    rw [hr]
    exact Or.inl rfl
  | getSize => exact Or.inl rfl
  | empty => exact Or.inl rfl

/-- A call that returns or throws, in a state satisfying the invariant where `data` is set
exactly when `size > 0`: the invariant and that relation hold afterwards, `size` has grown by
one exactly for a `push_back` that returned, and an `allocate` call returned in it exactly
when `data` went from unset to set. -/
theorem apply_inv (MaxSize s : Nat) (vs : List T) (op : Op T) (c : customContainer)
    (h : Heap T) (hi : Inv MaxSize vs c h) (hl : c.data = none ↔ c.size = 0)
    (ev : List Event) (r : Outcome Unit) (c1 : customContainer) (h1 : Heap T)
    (hstep : apply MaxSize s op c h = (ev, r, c1, h1)) (hr : r ≠ .ub) :
    (∃ vs1, Inv MaxSize vs1 c1 h1) ∧ (c1.data = none ↔ c1.size = 0) ∧
    c1.size = c.size + appended op r ∧
    (ev.filter Event.isReturnedAllocate).length + (if c.data = none then 0 else 1) =
      (if c1.data = none then 0 else 1) := by
  cases op with
  | push_back v =>
    simp only [apply] at hstep
    have hsnd := push_back_log_snd MaxSize s v c h
    rw [hstep] at hsnd
    have hinv := Inv_push_back MaxSize s vs v c h hi r c1 h1 hsnd.symm
    have hfacts := push_back_log_step MaxSize s v c h ev r c1 h1 hstep
    cases r with
    | ub => exact absurd rfl hr
    | ok u =>
      obtain ⟨hsz, hdata, hcount⟩ := hfacts.1 rfl
      refine ⟨⟨_, hinv.1 rfl⟩, ?_, by simp [appended, hsz], ?_⟩
      · constructor
        · intro hnone; exact absurd hnone hdata
        · intro hzero; omega
      · rw [hcount]
        simp only [hdata, if_false]
        split <;> rfl
    | throw e =>
      obtain ⟨hsz, hdata, hcount⟩ := hfacts.2 e rfl
      refine ⟨⟨_, hinv.2 e rfl⟩, by rw [hdata, hsz]; exact hl, by simp [appended, hsz], ?_⟩
      rw [hcount, hdata]
      simp
  | index i =>
    obtain ⟨r1, hr1⟩ := apply_index MaxSize s i c h
    rw [hr1] at hstep
    simp only [Prod.mk.injEq] at hstep
    obtain ⟨rfl, rfl, rfl, rfl⟩ := hstep
    exact ⟨⟨vs, hi⟩, hl, by simp [appended], by simp⟩
  | getSize =>
    simp only [apply, Prod.mk.injEq] at hstep
    obtain ⟨rfl, rfl, rfl, rfl⟩ := hstep
    exact ⟨⟨vs, hi⟩, hl, by simp [appended], by simp⟩
  | empty =>
    simp only [apply, Prod.mk.injEq] at hstep
    obtain ⟨rfl, rfl, rfl, rfl⟩ := hstep
    exact ⟨⟨vs, hi⟩, hl, by simp [appended], by simp⟩

theorem run_cons (MaxSize s : Nat) (op : Op T) (rest : List (Op T)) (c : customContainer)
    (h : Heap T) (ev : List Event) (r : Outcome Unit) (c1 : customContainer) (h1 : Heap T)
    (hstep : apply MaxSize s op c h = (ev, r, c1, h1)) (hr : r ≠ .ub) :
    run MaxSize s (op :: rest) c h =
      ⟨ev ++ (run MaxSize s rest c1 h1).events,
        appended op r + (run MaxSize s rest c1 h1).pushed,
        (run MaxSize s rest c1 h1).final⟩ := by
  cases r with
  | ub => exact absurd rfl hr
  | ok u => simp only [run, hstep]
  | throw e => simp only [run, hstep]

theorem run_cons_ub (MaxSize s : Nat) (op : Op T) (rest : List (Op T)) (c : customContainer)
    (h : Heap T) (ev : List Event) (c1 : customContainer) (h1 : Heap T)
    (hstep : apply MaxSize s op c h = (ev, .ub, c1, h1)) :
    run MaxSize s (op :: rest) c h = ⟨ev, 0, none⟩ := by
  simp only [run, hstep]

end customContainer

namespace customContainer

theorem run_inv (MaxSize s : Nat) (ops : List (Op T)) :
    ∀ (vs : List T) (c : customContainer) (h : Heap T),
      Inv MaxSize vs c h → (c.data = none ↔ c.size = 0) →
      ∀ (c1 : customContainer) (h1 : Heap T),
        (run MaxSize s ops c h).final = some (c1, h1) →
        (∃ vs1, Inv MaxSize vs1 c1 h1) ∧ (c1.data = none ↔ c1.size = 0) ∧
        c1.size = c.size + (run MaxSize s ops c h).pushed ∧
        ((run MaxSize s ops c h).events.filter Event.isReturnedAllocate).length +
            (if c.data = none then 0 else 1) =
          (if c1.data = none then 0 else 1) := by
  induction ops with
  | nil =>
    intro vs c h hi hl c1 h1 hfin
    simp only [run, Option.some.injEq, Prod.mk.injEq] at hfin
    obtain ⟨rfl, rfl⟩ := hfin
    exact ⟨⟨vs, hi⟩, hl, by simp [run], by simp [run]⟩
  | cons op rest ih =>
    intro vs c h hi hl c1 h1 hfin
    rcases hstep : apply MaxSize s op c h with ⟨ev, r, c2, h2⟩
    by_cases hr : r = .ub
    · subst hr
      rw [run_cons_ub MaxSize s op rest c h ev c2 h2 hstep] at hfin
      simp at hfin
    · rw [run_cons MaxSize s op rest c h ev r c2 h2 hstep hr] at hfin ⊢
      simp only at hfin ⊢
      obtain ⟨⟨vs2, hi2⟩, hl2, hsz2, hcount2⟩ :=
        apply_inv MaxSize s vs op c h hi hl ev r c2 h2 hstep hr
      obtain ⟨hi1, hl1, hsz1, hcount1⟩ := ih vs2 c2 h2 hi2 hl2 c1 h1 hfin
      refine ⟨hi1, hl1, by omega, ?_⟩
      rw [List.filter_append, List.length_append]
      omega

theorem run_size_data (MaxSize s : Nat) (ops : List (Op T)) :
    ∀ (c : customContainer) (h : Heap T) (c1 : customContainer) (h1 : Heap T),
      (run MaxSize s ops c h).final = some (c1, h1) →
      c.size ≤ c1.size ∧ ∀ d, c.data = some d → c1.data = some d := by
  induction ops with
  | nil =>
    intro c h c1 h1 hfin
    simp only [run, Option.some.injEq, Prod.mk.injEq] at hfin
    obtain ⟨rfl, rfl⟩ := hfin
    exact ⟨Nat.le_refl _, fun d hd => hd⟩
  | cons op rest ih =>
    intro c h c1 h1 hfin
    have hstep1 := apply_size_data MaxSize s op c h
    rcases hstep : apply MaxSize s op c h with ⟨ev, r, c2, h2⟩
    rw [hstep] at hstep1
    by_cases hr : r = .ub
    · subst hr
      rw [run_cons_ub MaxSize s op rest c h ev c2 h2 hstep] at hfin
      simp at hfin
    · rw [run_cons MaxSize s op rest c h ev r c2 h2 hstep hr] at hfin
      obtain ⟨hsz, hdata⟩ := ih c2 h2 c1 h1 hfin
      exact ⟨Nat.le_trans hstep1.1 hsz, fun d hd => hdata d (hstep1.2 d hd)⟩

theorem run_events (MaxSize s : Nat) (ops : List (Op T)) :
    ∀ (c : customContainer) (h : Heap T),
      ∀ e ∈ (run MaxSize s ops c h).events, ∃ b, e = Event.allocate MaxSize b := by
  induction ops with
  | nil =>
    intro c h e he
    simp [run] at he
  | cons op rest ih =>
    intro c h e he
    have hev := apply_events MaxSize s op c h
    rcases hstep : apply MaxSize s op c h with ⟨ev, r, c2, h2⟩
    rw [hstep] at hev
    have hmem : ∀ x ∈ ev, ∃ b, x = Event.allocate MaxSize b := by
      intro x hx
      rcases hev with hnil | ⟨b, hb⟩
      · simp only at hnil
        rw [hnil] at hx
        simp at hx
      · simp only at hb
        rw [hb] at hx
        simp only [List.mem_singleton] at hx
        exact ⟨b, hx⟩
    by_cases hr : r = .ub
    · subst hr
      rw [run_cons_ub MaxSize s op rest c h ev c2 h2 hstep] at he
      exact hmem e he
    · rw [run_cons MaxSize s op rest c h ev r c2 h2 hstep hr] at he
      simp only [List.mem_append] at he
      rcases he with he | he
      · exact hmem e he
      · exact ih c2 h2 e he

end customContainer

/-! ## Bounds and laziness of the container -/

/-- C11: in every state reached from a freshly constructed container by any sequence of
`push_back`, `operator[]`, `getSize` and `empty` calls, failing calls included,
`0 <= size <= MaxSize`. -/
theorem size_le_MaxSize (MaxSize B s : Nat) (h0 : Heap T) (hwf : h0.WF)
    (c0 : customContainer) (h1 : Heap T)
    (hnew : customContainer.new B s h0 = (.ok c0, h1)) (ops : List (Op T))
    (c : customContainer) (h : Heap T)
    (hrun : (customContainer.run MaxSize s ops c0 h1).final = some (c, h)) :
    0 ≤ c.size ∧ c.size ≤ MaxSize := by
  have hi0 := customContainer.Inv_fresh MaxSize B s h0 hwf c0 h1 hnew
  obtain ⟨hs0, hd0⟩ := customContainer.fresh_empty B s h0 c0 h1 hnew
  obtain ⟨⟨vs1, hi1⟩, _, _, _⟩ := customContainer.run_inv MaxSize s ops [] c0 h1 hi0
    ⟨fun _ => hs0, fun _ => hd0⟩ c h hrun
  obtain ⟨_, hsz, hle, _, _⟩ := hi1
  omega

/-- C12: a freshly constructed container has `size == 0` and `data == nullptr`; and in every
state reached from it by any sequence of calls, `data` is set if and only if a `push_back` has
returned, which is the case if and only if `size > 0` (elements copy without throwing, as
those of a trivially copyable type do). -/
theorem data_set_iff_appended (MaxSize B s : Nat) (h0 : Heap T) (hwf : h0.WF)
    (c0 : customContainer) (h1 : Heap T)
    (hnew : customContainer.new B s h0 = (.ok c0, h1)) (ops : List (Op T))
    (c : customContainer) (h : Heap T)
    (hrun : (customContainer.run MaxSize s ops c0 h1).final = some (c, h)) :
    (c0.size = 0 ∧ c0.data = none) ∧
    (c.data ≠ none ↔ 0 < (customContainer.run MaxSize s ops c0 h1).pushed) ∧
    (c.data ≠ none ↔ 0 < c.size) := by
  have hi0 := customContainer.Inv_fresh MaxSize B s h0 hwf c0 h1 hnew
  obtain ⟨hs0, hd0⟩ := customContainer.fresh_empty B s h0 c0 h1 hnew
  obtain ⟨_, hl, hsz, _⟩ := customContainer.run_inv MaxSize s ops [] c0 h1 hi0
    ⟨fun _ => hs0, fun _ => hd0⟩ c h hrun
  refine ⟨⟨hs0, hd0⟩, ?_, ?_⟩
  · rw [Ne, hl]; omega
  · rw [Ne, hl]; omega

/-- C11 witness: `demo_ops` on a fresh `customContainer<int, 2>` with the default allocator
ends with `size = 2`. -/
theorem size_le_MaxSize_witness :
    0 ≤ (⟨2, some ⟨0, 0⟩, ⟨20, 0, some ⟨0, 0⟩⟩⟩ : customContainer).size ∧
    (⟨2, some ⟨0, 0⟩, ⟨20, 0, some ⟨0, 0⟩⟩⟩ : customContainer).size ≤ 2 :=
  size_le_MaxSize 2 10 4 (Heap.init []) (by simp [Heap.WF, Heap.init])
    ⟨0, none, ⟨20, 0, some ⟨0, 0⟩⟩⟩ ⟨[List.replicate 20 none], [], []⟩ (by decide) demo_ops
    ⟨2, some ⟨0, 0⟩, ⟨20, 0, some ⟨0, 0⟩⟩⟩
    ⟨[some 7 :: some 8 :: List.replicate 18 none], [], []⟩ (by decide)

/-- C12 witness: the same run: `data` is set, two `push_back`s returned, `size = 2`. -/
theorem data_set_iff_appended_witness :
    ((⟨0, none, ⟨20, 0, some ⟨0, 0⟩⟩⟩ : customContainer).size = 0 ∧
      (⟨0, none, ⟨20, 0, some ⟨0, 0⟩⟩⟩ : customContainer).data = none) ∧
    ((⟨2, some ⟨0, 0⟩, ⟨20, 0, some ⟨0, 0⟩⟩⟩ : customContainer).data ≠ none ↔
      0 < (customContainer.run 2 4 demo_ops ⟨0, none, ⟨20, 0, some ⟨0, 0⟩⟩⟩
        (⟨[List.replicate 20 none], [], []⟩ : Heap Int)).pushed) ∧
    ((⟨2, some ⟨0, 0⟩, ⟨20, 0, some ⟨0, 0⟩⟩⟩ : customContainer).data ≠ none ↔
      0 < (⟨2, some ⟨0, 0⟩, ⟨20, 0, some ⟨0, 0⟩⟩⟩ : customContainer).size) :=
  data_set_iff_appended 2 10 4 (Heap.init []) (by simp [Heap.WF, Heap.init])
    ⟨0, none, ⟨20, 0, some ⟨0, 0⟩⟩⟩ ⟨[List.replicate 20 none], [], []⟩ (by decide) demo_ops
    ⟨2, some ⟨0, 0⟩, ⟨20, 0, some ⟨0, 0⟩⟩⟩
    ⟨[some 7 :: some 8 :: List.replicate 18 none], [], []⟩ (by decide)

/-! ## The length never decreases -/

/-- C16: for every container state, whatever it is, and every call of the public member
functions (`push_back`, `operator[]`, `getSize`, `empty`), `size` after the call is at least
`size` before it, however the call ends; hence along any sequence of calls `size` does not
decrease, and a container with `size > 0` never has `size == 0` again. -/
theorem size_never_decreases (MaxSize s : Nat) (op : Op T) (ops : List (Op T))
    (c : customContainer) (h : Heap T) (c1 : customContainer) (h1 : Heap T) :
    c.size ≤ (customContainer.apply MaxSize s op c h).2.2.1.size ∧
    ((customContainer.run MaxSize s ops c h).final = some (c1, h1) →
      c.size ≤ c1.size ∧ (0 < c.size → 0 < c1.size)) := by
  refine ⟨(customContainer.apply_size_data MaxSize s op c h).1, fun hrun => ?_⟩
  have := (customContainer.run_size_data MaxSize s ops c h c1 h1 hrun).1
  exact ⟨this, fun hpos => Nat.lt_of_lt_of_le hpos this⟩

/-- C16 witness: `demo_ops` on a `customContainer<int, 2>` that already holds the element 7. -/
theorem size_never_decreases_witness :
    (⟨1, some ⟨0, 0⟩, ⟨20, 0, some ⟨0, 0⟩⟩⟩ : customContainer).size ≤
      (⟨2, some ⟨0, 0⟩, ⟨20, 0, some ⟨0, 0⟩⟩⟩ : customContainer).size ∧
    (0 < (⟨1, some ⟨0, 0⟩, ⟨20, 0, some ⟨0, 0⟩⟩⟩ : customContainer).size →
      0 < (⟨2, some ⟨0, 0⟩, ⟨20, 0, some ⟨0, 0⟩⟩⟩ : customContainer).size) :=
  (size_never_decreases 2 4 (.push_back 8) demo_ops
    ⟨1, some ⟨0, 0⟩, ⟨20, 0, some ⟨0, 0⟩⟩⟩ ⟨[some 7 :: List.replicate 19 none], [], []⟩
    ⟨2, some ⟨0, 0⟩, ⟨20, 0, some ⟨0, 0⟩⟩⟩
    ⟨[some 7 :: some 7 :: List.replicate 18 none], [], []⟩).2 (by decide)

/-! ## How often the container calls `allocate` -/

namespace customContainer

/-- While `malloc` succeeds, every `allocate` call of a `push_back` that returns or throws has
returned, and `malloc` goes on succeeding. -/
theorem push_back_log_returns (MaxSize s : Nat) (vs : List T) (v : T) (c : customContainer)
    (h : Heap T) (hi : Inv MaxSize vs c h) (ho : ∀ x ∈ h.oracle, x = true)
    (ev : List Event) (r : Outcome Unit) (c1 : customContainer) (h1 : Heap T)
    (hstep : push_back_log MaxSize s v c h = (ev, r, c1, h1)) (hr : r ≠ .ub) :
    (∀ x ∈ h1.oracle, x = true) ∧ ∀ e ∈ ev, Event.isReturnedAllocate e = true := by
  by_cases hfull : c.size ≥ MaxSize
  · rw [push_back_log_full MaxSize s v c h hfull] at hstep
    simp only [Prod.mk.injEq] at hstep
    obtain ⟨rfl, rfl, rfl, rfl⟩ := hstep
    exact ⟨ho, fun e he => by simp at he⟩
  · have hlt : c.size < MaxSize := Nat.not_le.mp hfull
    have hcon : ∀ (p : Ptr) (ha hb : Heap T) (evs : List Event) (cc cd : customContainer),
        (∀ x ∈ ha.oracle, x = true) → (∀ e ∈ evs, Event.isReturnedAllocate e = true) →
        (match construct p v ha with
          | none => (evs, Outcome.ub, cc, ha)
          | some h2 => (evs, Outcome.ok (), cd, h2)) = (ev, r, c1, h1) →
        (∀ x ∈ h1.oracle, x = true) ∧ ∀ e ∈ ev, Event.isReturnedAllocate e = true := by
      intro p ha hb evs cc cd hoa hevs heq
      cases hc : construct p v ha with
      | none =>
        rw [hc] at heq
        simp only [Prod.mk.injEq] at heq
        exact absurd heq.2.1.symm hr
      | some h2 =>
        rw [hc] at heq
        simp only [Prod.mk.injEq] at heq
        obtain ⟨rfl, _, _, rfl⟩ := heq
        refine ⟨?_, hevs⟩
        rw [(allocatorforme.construct_frame p v ha h2 hc).2.2]
        exact hoa
    cases hd : c.data with
    | some d =>
      rw [push_back_log_data MaxSize s v c h hlt d hd] at hstep
      exact hcon _ h h [] c _ ho (fun e he => by simp at he) hstep
    | none =>
      rw [push_back_log_null MaxSize s v c h hlt hd] at hstep
      have hai := hi.1
      obtain ⟨b0, hb0, _⟩ := hai.2.2
      rcases allocatorforme.allocate_cases s MaxSize c.alloc h hai with
        ⟨_, he⟩ | ⟨_, hf, _⟩ | ⟨_, _, b, _, he⟩
      · rw [he, hb0] at hstep
        exact hcon _ h h _ _ _ ho (fun e hm => by
          simp only [List.mem_singleton] at hm
          rw [hm]; rfl) hstep
      · rw [mallocFails_of_all_true h ho] at hf
        simp at hf
      · rw [he] at hstep
        exact hcon _ _ h _ _ _ (all_true_tail _ ho) (fun e hm => by
          simp only [List.mem_singleton] at hm
          rw [hm]; rfl) hstep

theorem run_returns (MaxSize s : Nat) (ops : List (Op T)) :
    ∀ (vs : List T) (c : customContainer) (h : Heap T),
      Inv MaxSize vs c h → (c.data = none ↔ c.size = 0) → (∀ x ∈ h.oracle, x = true) →
      ∀ (c1 : customContainer) (h1 : Heap T),
        (run MaxSize s ops c h).final = some (c1, h1) →
        ∀ e ∈ (run MaxSize s ops c h).events, Event.isReturnedAllocate e = true := by
  induction ops with
  | nil =>
    intro vs c h _ _ _ c1 h1 _ e he
    simp [run] at he
  | cons op rest ih =>
    intro vs c h hi hl ho c1 h1 hfin e he
    rcases hstep : apply MaxSize s op c h with ⟨ev, r, c2, h2⟩
    by_cases hr : r = .ub
    · subst hr
      rw [run_cons_ub MaxSize s op rest c h ev c2 h2 hstep] at hfin
      simp at hfin
    · rw [run_cons MaxSize s op rest c h ev r c2 h2 hstep hr] at hfin he
      simp only at hfin
      simp only [List.mem_append] at he
      obtain ⟨⟨vs2, hi2⟩, hl2, _, _⟩ :=
        apply_inv MaxSize s vs op c h hi hl ev r c2 h2 hstep hr
      have hstepfacts : (∀ x ∈ h2.oracle, x = true) ∧
          ∀ x ∈ ev, Event.isReturnedAllocate x = true := by
        cases op with
        | push_back v =>
          exact push_back_log_returns MaxSize s vs v c h hi ho ev r c2 h2 hstep hr
        | index i =>
          obtain ⟨r1, hr1⟩ := apply_index MaxSize s i c h
          rw [hr1] at hstep
          simp only [Prod.mk.injEq] at hstep
          obtain ⟨rfl, _, _, rfl⟩ := hstep
          exact ⟨ho, fun x hx => by simp at hx⟩
        | getSize =>
          simp only [apply, Prod.mk.injEq] at hstep
          obtain ⟨rfl, _, _, rfl⟩ := hstep
          exact ⟨ho, fun x hx => by simp at hx⟩
        | empty =>
          simp only [apply, Prod.mk.injEq] at hstep
          obtain ⟨rfl, _, _, rfl⟩ := hstep
          exact ⟨ho, fun x hx => by simp at hx⟩
      rcases he with he | he
      · exact hstepfacts.2 e he
      · exact ih vs2 c2 h2 hi2 hl2 hstepfacts.1 c1 h1 hfin e he

end customContainer

/-- C13, as the code has it: along every sequence of calls on a fresh container, every call
the container makes on its allocator is `allocate(MaxSize)`; the number of these calls that
have returned is 0 while no `push_back` has returned and exactly 1 afterwards (a call that
throws `std::bad_alloc` leaves `data` unset, and the next `push_back` calls `allocate` again);
while the system allocations succeed no call throws, so this is then the number of all
`allocate` calls; and once `data` is set no later call changes it. -/
theorem allocate_returns_once (MaxSize B s : Nat) (h0 : Heap T) (hwf : h0.WF)
    (c0 : customContainer) (h1 : Heap T)
    (hnew : customContainer.new B s h0 = (.ok c0, h1)) (ops : List (Op T))
    (c : customContainer) (h : Heap T)
    (hrun : (customContainer.run MaxSize s ops c0 h1).final = some (c, h)) :
    (∀ e ∈ (customContainer.run MaxSize s ops c0 h1).events,
      ∃ b, e = Event.allocate MaxSize b) ∧
    ((customContainer.run MaxSize s ops c0 h1).events.filter
        Event.isReturnedAllocate).length =
      (if (customContainer.run MaxSize s ops c0 h1).pushed = 0 then 0 else 1) ∧
    ((∀ x ∈ h1.oracle, x = true) →
      (customContainer.run MaxSize s ops c0 h1).events.length =
        (if (customContainer.run MaxSize s ops c0 h1).pushed = 0 then 0 else 1)) ∧
    (∀ (d : Ptr) (ops2 : List (Op T)) (c2 : customContainer) (h2 : Heap T),
      c.data = some d → (customContainer.run MaxSize s ops2 c h).final = some (c2, h2) →
      c2.data = some d) := by
  have hi0 := customContainer.Inv_fresh MaxSize B s h0 hwf c0 h1 hnew
  obtain ⟨hs0, hd0⟩ := customContainer.fresh_empty B s h0 c0 h1 hnew
  have hl0 : c0.data = none ↔ c0.size = 0 := ⟨fun _ => hs0, fun _ => hd0⟩
  obtain ⟨_, hl, hsz, hcount⟩ := customContainer.run_inv MaxSize s ops [] c0 h1 hi0 hl0 c h hrun
  have hfilter : ((customContainer.run MaxSize s ops c0 h1).events.filter
        Event.isReturnedAllocate).length =
      (if (customContainer.run MaxSize s ops c0 h1).pushed = 0 then 0 else 1) := by
    simp only [hd0, if_true, Nat.add_zero] at hcount
    rw [hcount]
    by_cases hp : (customContainer.run MaxSize s ops c0 h1).pushed = 0
    · have : c.data = none := hl.mpr (by omega)
      simp [hp, this]
    · have : c.data ≠ none := fun hn => hp (by have := hl.mp hn; omega)
      simp [hp, this]
  refine ⟨customContainer.run_events MaxSize s ops c0 h1, hfilter, fun ho => ?_,
    fun d ops2 c2 h2 hd hrun2 =>
      (customContainer.run_size_data MaxSize s ops2 c h c2 h2 hrun2).2 d hd⟩
  have hall := customContainer.run_returns MaxSize s ops [] c0 h1 hi0 hl0 ho c h hrun
  rw [← hfilter, List.filter_eq_self.mpr hall]

/-- C13 witness: `demo_ops` on a fresh `customContainer<int, 2>` with the default allocator:
one `allocate(2)` call, which returned. -/
theorem allocate_returns_once_witness :
    (customContainer.run 2 4 demo_ops ⟨0, none, ⟨20, 0, some ⟨0, 0⟩⟩⟩
      (⟨[List.replicate 20 none], [], []⟩ : Heap Int)).events = [Event.allocate 2 true] ∧
    ((customContainer.run 2 4 demo_ops ⟨0, none, ⟨20, 0, some ⟨0, 0⟩⟩⟩
        (⟨[List.replicate 20 none], [], []⟩ : Heap Int)).events.filter
        Event.isReturnedAllocate).length =
      (if (customContainer.run 2 4 demo_ops ⟨0, none, ⟨20, 0, some ⟨0, 0⟩⟩⟩
        (⟨[List.replicate 20 none], [], []⟩ : Heap Int)).pushed = 0 then 0 else 1) :=
  ⟨by decide,
    (allocate_returns_once 2 10 4 (Heap.init []) (by simp [Heap.WF, Heap.init])
      ⟨0, none, ⟨20, 0, some ⟨0, 0⟩⟩⟩ ⟨[List.replicate 20 none], [], []⟩ (by decide) demo_ops
      ⟨2, some ⟨0, 0⟩, ⟨20, 0, some ⟨0, 0⟩⟩⟩
      ⟨[some 7 :: some 8 :: List.replicate 18 none], [], []⟩ (by decide)).2.1⟩

/-- C13 counterexample: a fresh `customContainer<int, 3, allocatorforme<int, 1>>` where the
system refuses the first block asked for after construction. The first `push_back` calls
`allocate(3)`, which throws: one `allocate` call has been made though no `push_back` has
returned. The second `push_back` calls `allocate(3)` again and returns: two calls, not one. -/
theorem allocate_called_twice :
    customContainer.run 3 4 [.push_back 7] (fresh_container_with 1 [true, false]).1
        (fresh_container_with 1 [true, false]).2 =
      ⟨[Event.allocate 3 false], 0,
        some (⟨0, none, ⟨2, 0, some ⟨0, 0⟩⟩⟩, ⟨[[none, none]], [], []⟩)⟩ ∧
    (customContainer.run 3 4 [.push_back 7, .push_back 7]
        (fresh_container_with 1 [true, false]).1
        (fresh_container_with 1 [true, false]).2).events =
      [Event.allocate 3 false, Event.allocate 3 true] ∧
    (customContainer.run 3 4 [.push_back 7, .push_back 7]
        (fresh_container_with 1 [true, false]).1
        (fresh_container_with 1 [true, false]).2).pushed = 1 := by
  decide

/-! ## The destructor of the container -/

theorem destroy_ok (p : Ptr) (h : Heap T) (hl : h.live p.blk)
    (hc : (h.cell p.blk p.off).isSome) : ∃ h1, destroy p h = some h1 := by
  simp [destroy, hl, hc]

theorem destroy_frame (p : Ptr) (h h1 : Heap T) (hd : destroy p h = some h1) :
    h1.released = h.released ∧ h1.blocks.length = h.blocks.length ∧ h1.oracle = h.oracle ∧
    h1.cell p.blk p.off = none ∧
    ∀ b i, (b ≠ p.blk ∨ i ≠ p.off) → h1.cell b i = h.cell b i := by
  unfold destroy at hd
  split at hd
  · rename_i hcond
    have hlt := hcond.1.1
    simp only [Option.some.injEq] at hd
    subst hd
    refine ⟨rfl, by simp, rfl, ?_, ?_⟩
    · simp only [Heap.cell, List.getD_eq_getElem?_getD]
      simp [hlt, List.getElem?_set]
      split <;> rfl
    · intro b i hne
      simp only [Heap.cell, List.getD_eq_getElem?_getD]
      by_cases hb : b = p.blk
      · subst hb
        have hi : i ≠ p.off := by
          rcases hne with hne | hne
          · exact absurd rfl hne
          · exact hne
        simp [hlt, List.getElem?_set, Ne.symm hi]
      · simp [List.getElem?_set, Ne.symm hb]
  · simp at hd

namespace customContainer

theorem destroy_loop_ok (d : Ptr) (fuel : Nat) :
    ∀ (i : Nat) (h : Heap T), h.live d.blk →
      (∀ j, i ≤ j → j < i + fuel → (h.cell d.blk (d.off + j)).isSome) →
      ∃ h1, destroy_loop d i fuel h =
          ((List.range' i fuel).map (fun j => Event.destroy ⟨d.blk, d.off + j⟩), some h1) ∧
        h1.released = h.released ∧ h1.blocks.length = h.blocks.length ∧
        h1.oracle = h.oracle ∧
        (∀ j, i ≤ j → j < i + fuel → h1.cell d.blk (d.off + j) = none) ∧
        (∀ j, j < i → h1.cell d.blk (d.off + j) = h.cell d.blk (d.off + j)) := by
  induction fuel with
  | zero =>
    intro i h _ _
    exact ⟨h, rfl, rfl, rfl, rfl, fun j h1 h2 => by omega, fun _ _ => rfl⟩
  | succ fuel ih =>
    intro i h hl hcells
    have hci := hcells i (Nat.le_refl _) (by omega)
    obtain ⟨h2, hd⟩ := destroy_ok ⟨d.blk, d.off + i⟩ h hl hci
    obtain ⟨hrel2, hlen2, hor2, hsame2, hother2⟩ := destroy_frame _ h h2 hd
    have hl2 : h2.live d.blk := by
      refine ⟨?_, ?_⟩
      · rw [hlen2]; exact hl.1
      · rw [hrel2]; exact hl.2
    obtain ⟨h1, hrun, hrel, hlen, hor, hnone, hkeep⟩ := ih (i + 1) h2 hl2 (by
      intro j hj1 hj2
      rw [hother2 d.blk (d.off + j) (Or.inr (by simp; omega))]
      exact hcells j (by omega) (by omega))
    refine ⟨h1, ?_, by rw [hrel, hrel2], by rw [hlen, hlen2], by rw [hor, hor2], ?_, ?_⟩
    · simp only [destroy_loop, hd, hrun, List.range'_succ, List.map_cons]
    · intro j hj1 hj2
      by_cases hji : j = i
      · subst hji
        rw [hkeep j (by omega)]
        exact hsame2
      · exact hnone j (by omega) (by omega)
    · intro j hj
      rw [hkeep j (by omega)]
      exact hother2 d.blk (d.off + j) (Or.inr (by simp; omega))

/-- In a reachable state the `size` elements behind `data` are live. -/
theorem Inv_elements_live (MaxSize : Nat) (vs : List T) (c : customContainer) (h : Heap T)
    (hi : Inv MaxSize vs c h) (d : Ptr) (hd : c.data = some d) :
    h.live d.blk ∧ ∀ j, j < c.size → (h.cell d.blk (d.off + j)).isSome := by
  obtain ⟨⟨_, _, b, hb, hl⟩, hsz, _, _, hcells⟩ := hi
  obtain ⟨hblk, hold⟩ := hcells d hd
  rw [hb] at hblk
  simp only [Option.some.injEq] at hblk
  subst hblk
  refine ⟨hl, fun j hj => ?_⟩
  have hjl : j < vs.length := by omega
  rw [hold j vs[j] (List.getElem?_eq_getElem hjl)]
  rfl

end customContainer

/-- C17: the destructor of a container whose `data` is set and whose `size = L` elements are
live (as in every reachable state) makes exactly these calls, in this order: the destructor of
the element at index 0, 1, ..., L − 1, each once, then `alloc.deallocate(data, L)` once; it
returns normally, releases no block itself and leaves the `L` slots without element. The
destructor of a container whose `data` is null makes no call at all. -/
theorem destructor_trace (c : customContainer) (h : Heap T) :
    (c.data = none → customContainer.delete c h = ([], .ok (), c, h)) ∧
    (∀ d, c.data = some d → h.live d.blk →
      (∀ j, j < c.size → (h.cell d.blk (d.off + j)).isSome) →
      ∃ h1, customContainer.delete c h =
          ((List.range c.size).map (fun j => Event.destroy ⟨d.blk, d.off + j⟩) ++
            [Event.deallocate (some d) c.size], .ok (), c, h1) ∧
        h1.released = h.released ∧ h1.blocks.length = h.blocks.length ∧
        ∀ j, j < c.size → h1.cell d.blk (d.off + j) = none) := by
  constructor
  · intro hd
    simp [customContainer.delete, hd]
  · intro d hd hl hcells
    obtain ⟨sz, dt, al⟩ := c
    simp only at hd hcells
    subst hd
    obtain ⟨h1, hrun, hrel, hlen, _, hnone, _⟩ :=
      customContainer.destroy_loop_ok d sz 0 h hl (fun j _ hj => hcells j (by omega))
    refine ⟨h1, ?_, hrel, hlen, fun j hj => hnone j (Nat.zero_le _) (by simp only at hj; omega)⟩
    simp only [customContainer.delete, hrun, allocatorforme.deallocate,
      List.range_eq_range']

/-- C17 witness: the destructor of `my_custom_container` of `main`: ten destructor calls on
the slots 0..9 of block 0 in ascending order, then `deallocate(data, 10)`. -/
theorem destructor_trace_witness :
    ∃ h1, customContainer.delete my_custom_container.2.1 my_custom_container.2.2 =
        ((List.range my_custom_container.2.1.size).map
            (fun j => Event.destroy ⟨(⟨0, 0⟩ : Ptr).blk, (⟨0, 0⟩ : Ptr).off + j⟩) ++
          [Event.deallocate (some ⟨0, 0⟩) my_custom_container.2.1.size], .ok (),
          my_custom_container.2.1, h1) ∧
      h1.released = my_custom_container.2.2.released ∧
      h1.blocks.length = my_custom_container.2.2.blocks.length ∧
      ∀ j, j < my_custom_container.2.1.size →
        h1.cell (⟨0, 0⟩ : Ptr).blk ((⟨0, 0⟩ : Ptr).off + j) = none :=
  (destructor_trace my_custom_container.2.1 my_custom_container.2.2).2 ⟨0, 0⟩
    (by decide) (by decide) (by decide)

end Laba4
